import Mathlib

/-!
Verification of the loglog outline engine against its specification.

The development shallowly embeds the two Python implementations that the
specification describes:

* the GUI tree model (`loglog_tree_model.py`): `LogLogNode` construction with
  TODO-marker parsing, `LogLogTree.load_from_text`, `serialize_to_loglog`,
  fold operations, `SelectionManager` and `get_visible_nodes`;
* the CLI core (`loglog.py`): `TreeNode` classification (`is_todo`,
  `todo_status`, `get_type`), `_get_shallowest_leaf_depth` and `to_md`;
* the GUI viewport undo/redo stacks (`loglog_gui.py`): `record_action`,
  `undo_action`, `redo_action`, `fold_to_level`.

Strings are modelled as `List Char`; Python `str.strip` is modelled on the
ASCII whitespace characters it removes from the texts in question.
-/

namespace LogLog

/-- Model of a Python string: a list of characters. -/
abbrev Str := List Char

/-- ASCII whitespace, as stripped by Python `str.strip` / skipped by blank-line
checks (space, tab, newline, carriage return, vertical tab, form feed). -/
def isWS (c : Char) : Bool :=
  c = ' ' || c = '\t' || c = '\n' || c = '\r' || c = Char.ofNat 11 || c = Char.ofNat 12

/-- Python `str.lstrip()`. -/
def lstrip (s : Str) : Str := s.dropWhile isWS

/-- Python `str.rstrip()`. -/
def rstrip (s : Str) : Str := (s.reverse.dropWhile isWS).reverse

/-- Python `str.strip()`. -/
def strip (s : Str) : Str := rstrip (lstrip s)

/-- A string is blank when it strips to the empty string. -/
def blank (s : Str) : Bool := s.all isWS

/-- Python `text.split(chr(10))`: split on newline, keeping empty pieces. -/
def splitNl : Str → List Str
  | [] => [[]]
  | c :: rest =>
    if c = '\n' then [] :: splitNl rest
    else
      match splitNl rest with
      | [] => [[c]]
      | l :: ls => (c :: l) :: ls

/-- Python `(chr(10)).join(lines)`. -/
def joinNl : List Str → Str
  | [] => []
  | [l] => l
  | l :: ls => l ++ '\n' :: joinNl ls

/-- The leading-indentation width computed by `LogLogTree.load_from_text`:
space counts 1, tab counts 4, stop at the first other character. -/
def indentWidth : Str → Nat
  | [] => 0
  | c :: rest =>
    if c = ' ' then 1 + indentWidth rest
    else if c = '\t' then 4 + indentWidth rest
    else 0

/-- The two-character marker of a regular item line. -/
def dashSp : Str := ['-', ' ']

/-- `[]` -/
def mkPend : Str := ['[', ']']

/-- `[ ]` -/
def mkPendSp : Str := ['[', ' ', ']']

/-- `[x]` -/
def mkDone : Str := ['[', 'x', ']']

/-- `[-]` -/
def mkProg : Str := ['[', '-', ']']

/-- `[?]` -/
def mkUnk : Str := ['[', '?', ']']

/-! ## The GUI tree model (`loglog_tree_model.py`) -/

/-- `TodoStatus` enumeration of the GUI model. -/
inductive TStatus where
  | pending
  | progress
  | complete
  | unknown
  deriving DecidableEq, Repr

/-- `NodeType` enumeration of the GUI model. -/
inductive NType where
  | root
  | item
  | todo
  deriving DecidableEq, Repr

/-- The content-carrying fields of a `LogLogNode`: content, node type and TODO
status (view-state flags are kept separately on the tree node). -/
structure Info where
  content : Str
  ntype : NType
  tstatus : Option TStatus
  deriving DecidableEq, Repr

/-- The info of the root node created by `LogLogNode(content = empty, ROOT)`. -/
def rootInfo : Info := ⟨[], NType.root, none⟩

/-- `LogLogNode.__init__` followed by `_parse_todo_status`, for a non-root
node: strip the content, then classify by the leading TODO marker, removing
it from the content. -/
def mkInfo (raw : Str) : Info :=
  if mkPend.isPrefixOf (strip raw) then
    ⟨strip ((strip raw).drop 2), NType.todo, some TStatus.pending⟩
  else if mkDone.isPrefixOf (strip raw) then
    ⟨strip ((strip raw).drop 3), NType.todo, some TStatus.complete⟩
  else if mkProg.isPrefixOf (strip raw) then
    ⟨strip ((strip raw).drop 3), NType.todo, some TStatus.progress⟩
  else if mkUnk.isPrefixOf (strip raw) then
    ⟨strip ((strip raw).drop 3), NType.todo, some TStatus.unknown⟩
  else ⟨strip raw, NType.item, none⟩

/-- A `LogLogNode` with the state the claims are about: info, fold flag,
ordered children. -/
inductive Node where
  | mk (info : Info) (folded : Bool) (children : List Node)

/-- The info of a node. -/
def Node.info : Node → Info
  | Node.mk i _ _ => i

/-- The `is_folded` flag of a node. -/
def Node.folded : Node → Bool
  | Node.mk _ f _ => f

/-- The children list of a node. -/
def Node.children : Node → List Node
  | Node.mk _ _ cs => cs

mutual

/-- Structural equality test on nodes (Python `LogLogNode` equality is object
identity; this comparison is used only to state theorems about concrete
trees). -/
def nodeBEq : Node → Node → Bool
  | Node.mk i1 f1 cs1, Node.mk i2 f2 cs2 =>
    decide (i1 = i2) && f1 = f2 && nodeListBEq cs1 cs2

/-- Pointwise `nodeBEq` on children lists. -/
def nodeListBEq : List Node → List Node → Bool
  | [], [] => true
  | a :: as, b :: bs => nodeBEq a b && nodeListBEq as bs
  | _, _ => false

end

/-- A (node, depth) pair of the depth-first sequence; depth of the root is 0,
its children have depth 1. -/
abbrev Entry := Info × Nat

mutual

/-- Depth-first entries of a subtree rooted at a node of the given depth:
`LogLogTree.get_all_nodes` order, skipping root-typed nodes, paired with the
node depth. -/
def dfsNode : Node → Nat → List Entry
  | Node.mk i _ cs, d =>
    (match i.ntype with
     | NType.root => []
     | _ => [(i, d)]) ++ dfsList cs (d + 1)

/-- Depth-first entries of a forest whose members sit at the given depth. -/
def dfsList : List Node → Nat → List Entry
  | [], _ => []
  | c :: cs, d => dfsNode c d ++ dfsList cs d

end

/-- The depth-first node sequence of a tree (root at depth 0). -/
def dfsSeq (t : Node) : List Entry := dfsNode t 0

/-! ### The parser: `LogLogTree.load_from_text` -/

/-- A stack frame of the parser: the info of the node being built and the
children collected for it so far. -/
abbrev Frame := Info × List Node

/-- The parser stack, top first; the bottom frame is the root. -/
abbrev Stack := List Frame

/-- One `stack.pop()`: the finished top node is attached as the last child of
the frame below it (nodes are created unfolded). -/
def popOnce : Stack → Stack
  | (i, ks) :: (i2, ks2) :: rest => (i2, ks2 ++ [Node.mk i false ks]) :: rest
  | s => s

/-- `while len(stack) > n: stack.pop()`. -/
def popTo (n : Nat) (s : Stack) : Stack :=
  match s with
  | (i, ks) :: (i2, ks2) :: rest =>
    if n < ((i, ks) :: (i2, ks2) :: rest).length then
      popTo n ((i2, ks2 ++ [Node.mk i false ks]) :: rest)
    else
      (i, ks) :: (i2, ks2) :: rest
  | s => s
termination_by s.length
decreasing_by simp_wf

/-- The classification of one input line by `load_from_text`: `none` for a
blank line (skipped), otherwise the node info together with the indentation
level `indentWidth / 4`. -/
def lineItem (line : Str) : Option (Info × Nat) :=
  if blank line then none
  else
    let c0 := lstrip line
    let c1 := if dashSp.isPrefixOf c0 then c0.drop 2 else c0
    some (mkInfo c1, indentWidth line / 4)

/-- Processing of one line of `load_from_text`: skip blank lines; otherwise
pop the stack to the line's level and push the new node's frame. -/
def stepLine (s : Stack) (line : Str) : Stack :=
  match lineItem line with
  | none => s
  | some (i, lvl) => (i, []) :: popTo (lvl + 1) s

/-- Collapse the finished stack into the root node. -/
def stackRoot (s : Stack) : Node :=
  match popTo 1 s with
  | [(i, ks)] => Node.mk i false ks
  | _ => Node.mk rootInfo false []

/-- Parse a list of lines into a tree (the loop of `load_from_text`). -/
def parseLines (lines : List Str) : Node :=
  stackRoot (lines.foldl stepLine [(rootInfo, [])])

/-- `LogLogTree.load_from_text`: blank input yields the bare root, otherwise
the text is split on newlines and parsed line by line. -/
def loadFromText (text : Str) : Node :=
  if blank text then Node.mk rootInfo false []
  else parseLines (splitNl text)

/-! ### The serializer: `LogLogNode.serialize_to_loglog` -/

/-- The marker prefix chosen by `serialize_to_loglog` for a TODO node
(`[]` is also the fallback for a missing status). -/
def statusMarker : Option TStatus → Str
  | some TStatus.pending => mkPend
  | some TStatus.progress => mkProg
  | some TStatus.complete => mkDone
  | some TStatus.unknown => mkUnk
  | none => mkPend

/-- The single line emitted for a non-root node at the given level. -/
def mkLine (i : Info) (level : Nat) : Str :=
  let ind := List.replicate (4 * level) ' '
  match i.ntype with
  | NType.todo => ind ++ statusMarker i.tstatus ++ ' ' :: i.content
  | _ => ind ++ dashSp ++ i.content

mutual

/-- `LogLogNode.serialize_to_loglog(level)`: emit the own line (unless root),
then—only when the node is not folded—each child's serialized text split back
into lines; finally join the non-blank lines with newlines. -/
def serializeNode : Node → Nat → Str
  | Node.mk i f cs, level =>
    joinNl
      (((match i.ntype with
         | NType.root => []
         | _ => [mkLine i level]) ++
        (if f then []
         else childSplit cs
           (match i.ntype with
            | NType.root => level
            | _ => level + 1))).filter (fun l => !(blank l)))

/-- The lines contributed by a list of children, each child's output split on
newlines (`lines.extend(child.serialize_to_loglog(...).split(...))`). -/
def childSplit : List Node → Nat → List Str
  | [], _ => []
  | c :: cs, lvl => splitNl (serializeNode c lvl) ++ childSplit cs lvl

end

/-- `LogLogTree.serialize`: serialize the root at level 0. -/
def serializeTree (t : Node) : Str := serializeNode t 0

/-! ### Fold operations -/

mutual

/-- `fold_to_level(max_level)`'s inner `fold_recursive(node, current_level)`
(identical in `TreeRenderer.fold_to_level` and the delegating copy): a node at
level ≥ `max_level` is folded and recursion stops there; a shallower node is
unfolded and its children are visited. -/
def foldRecursive (maxL : Nat) : Node → Nat → Node
  | Node.mk i _ cs, cur =>
    if maxL ≤ cur then Node.mk i true cs
    else Node.mk i false (foldRecursiveList maxL cs (cur + 1))

/-- `fold_recursive` mapped over a children list. -/
def foldRecursiveList (maxL : Nat) : List Node → Nat → List Node
  | [], _ => []
  | c :: cs, cur => foldRecursive maxL c cur :: foldRecursiveList maxL cs cur

end

/-- `fold_to_level(max_level)`: run `fold_recursive` from the root at level 0. -/
def foldToLevel (maxL : Nat) (t : Node) : Node := foldRecursive maxL t 0

mutual

/-- `LogLogNode.toggle_fold(recursive=True)` applied to a node whose current
`is_folded` value is the first argument (the caller has just overwritten it):
the node's flag becomes the negation, and each child first has its flag set to
that new value and is then itself recursively toggled. -/
def toggleFrom (f : Bool) : Node → Node
  | Node.mk i _ cs => Node.mk i (!f) (toggleFromList (!f) cs)

/-- `toggleFrom` over a children list whose members' flags were just set to
the given value. -/
def toggleFromList (v : Bool) : List Node → List Node
  | [] => []
  | c :: cs => toggleFrom v c :: toggleFromList v cs

end

/-- `toggle_fold(recursive=True)` on a node: toggle starting from its stored
`is_folded` flag. -/
def toggleFoldRec (t : Node) : Node := toggleFrom t.folded t

/-- The `is_folded` flag of the node reached from `t` by the given child-index
path (`none` when the path leaves the tree). -/
def foldedAt : Node → List Nat → Option Bool
  | t, [] => some t.folded
  | t, k :: path =>
    match t.children.get? k with
    | none => none
    | some c => foldedAt c path

/-- The info of the node reached from `t` by the given child-index path. -/
def infoAt : Node → List Nat → Option Info
  | t, [] => some t.info
  | t, k :: path =>
    match t.children.get? k with
    | none => none
    | some c => infoAt c path

/-! ## The CLI core (`loglog.py`) -/

/-- The `type` attribute of a `TreeNode`. -/
inductive TType where
  | root
  | todo
  | regular
  deriving DecidableEq, Repr

/-- The `status` attribute of a todo `TreeNode`: Python `True` (complete),
`False` (pending), the string `in_progress`, or `None` (unknown). -/
inductive PStatus where
  | done
  | notDone
  | inProg
  | unknownSt
  deriving DecidableEq, Repr

/-- `TreeNode.is_todo`: the lowered data matches `^\[.\]` or `^\[\]`. -/
def tnIsTodo (d : Str) : Bool :=
  match d with
  | '[' :: ']' :: _ => true
  | '[' :: _ :: ']' :: _ => true
  | _ => false

/-- `TreeNode.todo_status`: classify by the leading marker of the lowered
data and strip it from the (original) data. -/
def tnTodoStatus (d : Str) : PStatus × Str :=
  if mkPend.isPrefixOf (d.map Char.toLower) then (PStatus.notDone, strip (d.drop 2))
  else if mkPendSp.isPrefixOf (d.map Char.toLower) then (PStatus.notDone, strip (d.drop 3))
  else if mkDone.isPrefixOf (d.map Char.toLower) then (PStatus.done, strip (d.drop 3))
  else if mkProg.isPrefixOf (d.map Char.toLower) then (PStatus.inProg, strip (d.drop 3))
  else (PStatus.unknownSt, strip (d.drop 3))

/-- The result of classifying a `TreeNode`'s data: type, status (only
meaningful for todo nodes) and the resulting data. -/
structure TnClass where
  ttype : TType
  status : Option PStatus
  tdata : Str
  deriving DecidableEq, Repr

/-- The regular-item dash removal at the end of `TreeNode.get_type`
(`re.match` of a dash regex anchored at the start of the lowered data, then
`data[1:].strip()`). -/
def tnDashStrip (ty : TType) (st : Option PStatus) (d1 : Str) : TnClass :=
  if (['-'] : Str).isPrefixOf (d1.map Char.toLower) then ⟨ty, st, strip (d1.drop 1)⟩
  else ⟨ty, st, d1⟩

/-- `TreeNode.get_type` as run by `__init__` on a non-root node: todo
classification first, then the regular-item dash removal. -/
def tnClassify (raw : Str) : TnClass :=
  if tnIsTodo raw then
    tnDashStrip TType.todo (some (tnTodoStatus raw).1) (tnTodoStatus raw).2
  else tnDashStrip TType.regular none raw

/-- A `TreeNode` as consumed by `to_md`: data, type, status, children. -/
inductive TNode where
  | mk (tdata : Str) (ttype : TType) (status : PStatus) (children : List TNode)

/-- The data of a `TreeNode`. -/
def TNode.tdata : TNode → Str
  | TNode.mk d _ _ _ => d

/-- The type of a `TreeNode`. -/
def TNode.ttype : TNode → TType
  | TNode.mk _ ty _ _ => ty

/-- The status of a `TreeNode`. -/
def TNode.status : TNode → PStatus
  | TNode.mk _ _ st _ => st

/-- The children of a `TreeNode`. -/
def TNode.children : TNode → List TNode
  | TNode.mk _ _ _ cs => cs

mutual

/-- `TreeNode._get_shallowest_leaf_depth(current_depth)`: a leaf returns the
current depth, otherwise the minimum over the children at depth + 1. -/
def sldOf : TNode → Nat → Nat
  | TNode.mk _ _ _ cs, d =>
    match cs with
    | [] => d
    | c :: rest => sldFold rest d (sldOf c (d + 1))

/-- The `min` fold of `_get_shallowest_leaf_depth` over the remaining
children. -/
def sldFold : List TNode → Nat → Nat → Nat
  | [], _, acc => acc
  | c :: rest, d, acc => sldFold rest d (min acc (sldOf c (d + 1)))

end

/-- The checkbox text `to_md` uses for a todo status. -/
def mdCheck : PStatus → Str
  | PStatus.done => mkDone
  | PStatus.notDone => mkPendSp
  | PStatus.inProg => mkProg
  | PStatus.unknownSt => mkUnk

mutual

/-- `TreeNode.to_md(header_levels, _current_depth, _shallowest_leaf_depth)`
for a non-root node: emit a header block (depth < cutoff) or a list bullet
(depth ≥ cutoff), then the children's output. -/
def toMdNode : TNode → Nat → Nat → Nat → Str
  | TNode.mk d ty st cs, hl, cur, sld =>
    (if cur < min sld (hl + 1) then
      List.replicate cur '#' ++
        ' ' :: (if ty = TType.todo then mdCheck st ++ ' ' :: d else d) ++ ['\n', '\n']
     else
      List.replicate (2 * (cur - min sld (hl + 1))) ' ' ++
        (if ty = TType.todo then dashSp ++ mdCheck st ++ [' '] else dashSp) ++
        d ++ ['\n']) ++
    toMdList cs hl (cur + 1) sld

/-- `to_md` accumulated over a children list. -/
def toMdList : List TNode → Nat → Nat → Nat → Str
  | [], _, _, _ => []
  | c :: cs, hl, cur, sld => toMdNode c hl cur sld ++ toMdList cs hl cur sld

end

/-- The root branch of `TreeNode.to_md`: accumulate the children's output,
inserting a newline after a child whenever the accumulated result is nonempty
and does not already end in two newlines, then rstrip and append a final
newline. -/
def toMdRootLoop (cs : List TNode) (hl sld : Nat) (acc : Str) : Str :=
  match cs with
  | [] => acc
  | c :: rest =>
    toMdRootLoop rest hl sld
      (if acc ++ toMdNode c hl 1 sld ≠ [] ∧
          ¬(['\n', '\n'] : Str).isSuffixOf (acc ++ toMdNode c hl 1 sld) then
        (acc ++ toMdNode c hl 1 sld) ++ ['\n']
      else acc ++ toMdNode c hl 1 sld)

/-- `TreeNode.to_md` on the root node. -/
def toMdRoot (t : TNode) (hl : Nat) : Str :=
  rstrip (toMdRootLoop t.children hl (sldOf t 0) []) ++ ['\n']

/-! ## The selection manager (`SelectionManager`)

Python compares nodes by object identity, so the selection model tracks nodes
through numeric identifiers attached to a view tree. -/

/-- A tree node carrying an identifier and a fold flag; the outermost `VNode`
plays the role of the root (its own id is never listed as visible). -/
inductive VNode where
  | mk (vid : Nat) (folded : Bool) (children : List VNode)

/-- The identifier of a view node. -/
def VNode.vid : VNode → Nat
  | VNode.mk i _ _ => i

/-- The fold flag of a view node. -/
def VNode.vfolded : VNode → Bool
  | VNode.mk _ f _ => f

/-- The children of a view node. -/
def VNode.vchildren : VNode → List VNode
  | VNode.mk _ _ cs => cs

mutual

/-- `get_visible_nodes`'s collection for a non-root node: the node itself,
then—unless it is folded—its children. -/
def visNode : VNode → List Nat
  | VNode.mk i f cs => i :: (if f then [] else visList cs)

/-- Visible ids of a forest of non-root nodes. -/
def visList : List VNode → List Nat
  | [] => []
  | c :: cs => visNode c ++ visList cs

end

/-- `LogLogTree.get_visible_nodes()`: the root itself is not listed, and its
children are visited only when the root is not folded. -/
def visibleIds (root : VNode) : List Nat :=
  if root.vfolded then [] else visList root.vchildren

mutual

/-- All node ids of a subtree (the node itself and its descendants). -/
def allIdsNode : VNode → List Nat
  | VNode.mk i _ cs => i :: allIdsList cs

/-- All node ids of a forest. -/
def allIdsList : List VNode → List Nat
  | [] => []
  | c :: cs => allIdsNode c ++ allIdsList cs

end

/-- Ids of the non-root nodes of a view tree. -/
def treeIds (root : VNode) : List Nat := allIdsList root.vchildren

/-- The `SelectionManager` state: the selected set (kept as the insertion
ordered list of ids), the focused node and the range anchor. -/
structure SelState where
  selected : List Nat
  focusedId : Option Nat
  anchorId : Option Nat
  deriving DecidableEq, Repr

/-- `add_to_selection`: insert the node if it is not already selected. -/
def addToSelection (s : SelState) (n : Nat) : SelState :=
  if n ∈ s.selected then s else { s with selected := s.selected ++ [n] }

/-- `remove_from_selection`: remove the node if present. -/
def removeFromSelection (s : SelState) (n : Nat) : SelState :=
  if n ∈ s.selected then { s with selected := s.selected.erase n } else s

/-- `toggle_selection`. -/
def toggleSelection (s : SelState) (n : Nat) : SelState :=
  if n ∈ s.selected then removeFromSelection s n else addToSelection s n

/-- `set_focus`: move the focus, and for a real node add it to the selection
(focused implies selected). -/
def setFocus (s : SelState) (n : Option Nat) : SelState :=
  match n with
  | none => { s with focusedId := none }
  | some m => addToSelection { s with focusedId := some m } m

/-- `clear_selection`: deselect every node except the focused one. -/
def clearSelection (s : SelState) : SelState :=
  { s with selected := s.selected.filter (fun x => s.focusedId = some x) }

/-- The index of the first occurrence of an id in a list (`list.index`,
`none` modelling the `ValueError`). -/
def idxOf (x : Nat) : List Nat → Option Nat
  | [] => none
  | y :: ys => if y = x then some 0 else (idxOf x ys).map (· + 1)

/-- `select_range(start_node, end_node)`: clear the selection, resolve both
indices in the visible order, select the inclusive index range in ascending
order and set the anchor to `start_node`; if either index fails to resolve,
just select the two endpoints. -/
def selectRange (t : VNode) (s : SelState) (a b : Nat) : SelState :=
  match idxOf a (visibleIds t), idxOf b (visibleIds t) with
  | some ia, some ib =>
    { (((visibleIds t).drop (min ia ib)).take (max ia ib + 1 - min ia ib)).foldl
        addToSelection (clearSelection s) with
      anchorId := some a }
  | _, _ => addToSelection (addToSelection (clearSelection s) a) b

/-- The selection operations of the claims. -/
inductive SelOp where
  | focus (n : Option Nat)
  | add (n : Nat)
  | remove (n : Nat)
  | toggle (n : Nat)
  | clear
  | range (a b : Nat)

/-- Apply one selection operation. -/
def selStep (t : VNode) (s : SelState) : SelOp → SelState
  | SelOp.focus n => setFocus s n
  | SelOp.add n => addToSelection s n
  | SelOp.remove n => removeFromSelection s n
  | SelOp.toggle n => toggleSelection s n
  | SelOp.clear => clearSelection s
  | SelOp.range a b => selectRange t s a b

/-- An operation is valid when every node it names belongs to the tree. -/
def opValid (t : VNode) : SelOp → Prop
  | SelOp.focus none => True
  | SelOp.focus (some n) => n ∈ treeIds t
  | SelOp.add n => n ∈ treeIds t
  | SelOp.remove n => n ∈ treeIds t
  | SelOp.toggle n => n ∈ treeIds t
  | SelOp.clear => True
  | SelOp.range a b => a ∈ treeIds t ∧ b ∈ treeIds t

/-- Selection states reachable from the initial empty state by valid
operations. -/
inductive SelReach (t : VNode) : SelState → Prop where
  | init : SelReach t ⟨[], none, none⟩
  | step : ∀ s op, SelReach t s → opValid t op → SelReach t (selStep t s op)

/-! ## The viewport undo/redo stacks (`loglog_gui.py`) -/

/-- A word character of the hashtag pattern (ASCII `\w`). -/
def isWordChar (c : Char) : Bool := c.isAlphanum || c = '_'

/-- The scanning loop of the hashtag search, with fuel bounding the number of
characters still to be inspected. -/
def extractTagsAux : Nat → Str → List Str
  | 0, _ => []
  | _, [] => []
  | fuel + 1, c :: rest =>
    if c = '#' then
      let w := rest.takeWhile isWordChar
      if w.isEmpty then extractTagsAux fuel rest
      else ('#' :: w) :: extractTagsAux fuel (rest.dropWhile isWordChar)
    else extractTagsAux fuel rest

/-- `re.findall` of the hashtag pattern: every `#` followed by at least one
word character yields a tag, scanning left to right without overlap. -/
def extractTags (s : Str) : List Str := extractTagsAux s.length s

/-- The node state touched by the recorded actions: id, content, extracted
hashtags, node type and TODO status. -/
structure GNode where
  gid : Nat
  gcontent : Str
  ghashtags : List Str
  gntype : NType
  gstatus : Option TStatus
  deriving DecidableEq, Repr

/-- `LogLogNode.set_content`: strip the new content and re-extract the
hashtags. -/
def setContentG (n : GNode) (c : Str) : GNode :=
  { n with gcontent := strip c, ghashtags := extractTags (strip c) }

/-- `LogLogNode.set_todo_status`. -/
def setTodoStatusG (n : GNode) (st : Option TStatus) : GNode :=
  match st with
  | none => { n with gntype := NType.item, gstatus := none }
  | some s => { n with gntype := NType.todo, gstatus := some s }

/-- The recorded undoable actions of the claims (`record_action` payloads). -/
inductive GAction where
  | editNode (nid : Nat) (oldC newC : Str)
  | todoStatus (nid : Nat) (oldS newS : Option TStatus)
  deriving DecidableEq, Repr

/-- A viewport document state: the nodes in `get_all_nodes` order and the two
action stacks (most recent first). -/
structure GState where
  gnodes : List GNode
  undoStack : List GAction
  redoStack : List GAction
  deriving DecidableEq, Repr

/-- Find the first node with the given id (`for node in get_all_nodes()`). -/
def findNode (ns : List GNode) (nid : Nat) : Option GNode :=
  ns.find? (fun n => n.gid = nid)

/-- Rewrite the first node with the given id. -/
def updateNode (ns : List GNode) (nid : Nat) (f : GNode → GNode) : List GNode :=
  match ns with
  | [] => []
  | n :: rest => if n.gid = nid then f n :: rest else n :: updateNode rest nid f

/-- `record_action`: push onto the undo stack, clear the redo stack, and trim
the oldest entry when the stack exceeds 50 actions. -/
def recordAction (s : GState) (a : GAction) : GState :=
  let u := a :: s.undoStack
  { s with undoStack := if u.length > 50 then u.dropLast else u, redoStack := [] }

/-- `TabViewport.undo_action`: pop the most recent action; when its node id
resolves, push a redo entry built from the old/new fields as the code does,
apply the old value (a content edit writes `node.content` directly, a status
change goes through `set_todo_status`) and return success; when the id does
not resolve, the action is appended back onto the undo stack and the call
returns failure. -/
def undoStep (s : GState) : Bool × GState :=
  match s.undoStack with
  | [] => (false, s)
  | a :: rest =>
    match a with
    | GAction.editNode nid oldC _ =>
      match findNode s.gnodes nid with
      | some n =>
        (true,
          { gnodes := updateNode s.gnodes nid (fun m => { m with gcontent := oldC }),
            undoStack := rest,
            redoStack := GAction.editNode nid n.gcontent oldC :: s.redoStack })
      | none => (false, { s with undoStack := a :: rest })
    | GAction.todoStatus nid oldS _ =>
      match findNode s.gnodes nid with
      | some n =>
        (true,
          { gnodes := updateNode s.gnodes nid (fun m => setTodoStatusG m oldS),
            undoStack := rest,
            redoStack := GAction.todoStatus nid n.gstatus oldS :: s.redoStack })
      | none => (false, { s with undoStack := a :: rest })

/-- `TabViewport.redo_action`: symmetric to `undo_action`, popping the redo
stack and applying the action's new value. -/
def redoStep (s : GState) : Bool × GState :=
  match s.redoStack with
  | [] => (false, s)
  | a :: rest =>
    match a with
    | GAction.editNode nid _ newC =>
      match findNode s.gnodes nid with
      | some n =>
        (true,
          { gnodes := updateNode s.gnodes nid (fun m => { m with gcontent := newC }),
            undoStack := GAction.editNode nid n.gcontent newC :: s.undoStack,
            redoStack := rest })
      | none => (false, { s with redoStack := a :: rest })
    | GAction.todoStatus nid _ newS =>
      match findNode s.gnodes nid with
      | some n =>
        (true,
          { gnodes := updateNode s.gnodes nid (fun m => setTodoStatusG m newS),
            undoStack := GAction.todoStatus nid n.gstatus newS :: s.undoStack,
            redoStack := rest })
      | none => (false, { s with redoStack := a :: rest })

/-! ## Well-formedness predicates and specification helpers -/

/-- The shape of the info of every node built by the GUI parser: stripped,
newline-free content; an item carries no marker and no status; a todo carries
a status; the type is never root. -/
def infoWF (i : Info) : Bool :=
  decide (strip i.content = i.content) && decide ('\n' ∉ i.content) &&
    (match i.ntype with
     | NType.root => false
     | NType.item =>
       !(mkPend.isPrefixOf i.content) && !(mkDone.isPrefixOf i.content) &&
         !(mkProg.isPrefixOf i.content) && !(mkUnk.isPrefixOf i.content) &&
         decide (i.tstatus = none)
     | NType.todo => i.tstatus.isSome)

mutual

/-- Well-formedness of a non-root subtree as produced by the GUI parser:
well-formed info, unfolded, well-formed children. -/
def nodeWF : Node → Bool
  | Node.mk i f cs => infoWF i && !f && nodeListWF cs

/-- Well-formedness of a forest of non-root nodes. -/
def nodeListWF : List Node → Bool
  | [] => true
  | c :: cs => nodeWF c && nodeListWF cs

end

/-- Well-formedness of a whole tree: a root-typed unfolded root above a
well-formed forest. -/
def treeWF (t : Node) : Bool :=
  decide (t.info.ntype = NType.root) && !t.folded && nodeListWF t.children

/-- The depth recurrence realized by the parser stack: a line at indentation
level `lvl`, arriving when the previous node sits at depth `d`, produces a
node at depth `min (d+1) (lvl+1)`. -/
def depthSeq (d : Nat) : List (Info × Nat) → List Entry
  | [] => []
  | (i, lvl) :: rest =>
    (i, min (d + 1) (lvl + 1)) :: depthSeq (min (d + 1) (lvl + 1)) rest

/-- The depth reassignment one reparsed line undergoes relative to its
serialized depth: a node serialized from depth `d` is written at level
`d - 1`. -/
def demote (e : Entry) : Entry := (e.1, e.2 - 1)

/-- The bottom frame produced by repeatedly popping a stack whose top frame is
given separately: each pop attaches the finished top node as the last child of
the frame below it. -/
def collapseF : Frame → Stack → Frame
  | f, [] => f
  | (i, ks), (i2, ks2) :: rest => collapseF (i2, ks2 ++ [Node.mk i false ks]) rest

/-- Depth-first entries contributed by a parser stack read bottom-first, the
first listed frame sitting at the given depth: the frame's own entry (unless
root-typed), then its collected children, then the frames above it, one level
deeper. -/
def pathDfs : List Frame → Nat → List Entry
  | [], _ => []
  | (i, ks) :: rest, d =>
    (match i.ntype with
     | NType.root => []
     | _ => [(i, d)]) ++ dfsList ks (d + 1) ++ pathDfs rest (d + 1)

/-- Well-formedness of a parser stack: every frame holds well-formed children,
the bottom frame is root-typed, and every frame above it carries a well-formed
info. -/
def stackOK : Stack → Bool
  | [] => false
  | [(i, ks)] => decide (i.ntype = NType.root) && nodeListWF ks
  | (i, ks) :: g :: rest => infoWF i && nodeListWF ks && stackOK (g :: rest)

mutual

/-- Equality of two trees up to the fold flags (contents, types, statuses and
shape agree; fold flags are unconstrained). -/
def sameButFold : Node → Node → Bool
  | Node.mk i1 _ cs1, Node.mk i2 _ cs2 => decide (i1 = i2) && sameButFoldList cs1 cs2

/-- Pointwise `sameButFold`. -/
def sameButFoldList : List Node → List Node → Bool
  | [], [] => true
  | a :: as, b :: bs => sameButFold a b && sameButFoldList as bs
  | _, _ => false

end

mutual

/-- Equality of two trees up to the fold flags of childless nodes (nodes with
children must agree on the flag as well). -/
def eqButLeafFold : Node → Node → Bool
  | Node.mk i1 f1 cs1, Node.mk i2 f2 cs2 =>
    decide (i1 = i2) && (decide (f1 = f2) || (cs1.isEmpty && cs2.isEmpty)) &&
      eqButLeafFoldList cs1 cs2

/-- Pointwise `eqButLeafFold`. -/
def eqButLeafFoldList : List Node → List Node → Bool
  | [], [] => true
  | a :: as, b :: bs => eqButLeafFold a b && eqButLeafFoldList as bs
  | _, _ => false

end

/-- The non-blank lines of a text. -/
def fnl (s : Str) : List Str := (splitNl s).filter (fun l => !(blank l))

/-- Concatenate lines, terminating each with a newline. -/
def unlines : List Str → Str
  | [] => []
  | l :: ls => l ++ '\n' :: unlines ls

/-- One row of the Markdown-export node sequence: data, type, status, depth. -/
structure MdEntry where
  edata : Str
  etype : TType
  estatus : PStatus
  edepth : Nat
  deriving DecidableEq, Repr

mutual

/-- Depth-first entries of a non-root `TreeNode` at the given depth. -/
def mdEntriesNode : TNode → Nat → List MdEntry
  | TNode.mk d ty st cs, depth => ⟨d, ty, st, depth⟩ :: mdEntriesList cs (depth + 1)

/-- Depth-first entries of a forest of non-root `TreeNode`s. -/
def mdEntriesList : List TNode → Nat → List MdEntry
  | [], _ => []
  | c :: cs, depth => mdEntriesNode c depth ++ mdEntriesList cs depth

end

/-- Depth-first entries below a root `TreeNode` (children at depth 1). -/
def mdEntries (t : TNode) : List MdEntry := mdEntriesList t.children 1

/-- The single Markdown line `to_md` emits for an entry, given the header
cutoff: an ATX header of level `depth` below the cutoff, otherwise a dash
bullet indented two spaces per level beyond the cutoff, with the TODO status
as a bracket checkbox. -/
def mdRender (cutoff : Nat) (e : MdEntry) : Str :=
  if e.edepth < cutoff then
    List.replicate e.edepth '#' ++
      ' ' :: (if e.etype = TType.todo then mdCheck e.estatus ++ ' ' :: e.edata else e.edata)
  else
    List.replicate (2 * (e.edepth - cutoff)) ' ' ++
      (if e.etype = TType.todo then dashSp ++ mdCheck e.estatus ++ [' '] else dashSp) ++ e.edata

/-- The full block `to_md` emits for an entry: the line plus a blank line
after a header, or the line alone for a bullet. -/
def mdBlock (cutoff : Nat) (e : MdEntry) : Str :=
  if e.edepth < cutoff then mdRender cutoff e ++ ['\n', '\n']
  else mdRender cutoff e ++ ['\n']

mutual

/-- Well-formedness for Markdown export of a non-root `TreeNode`: non-root
type, stripped non-empty newline-free data, well-formed children. -/
def tnodeWF : TNode → Bool
  | TNode.mk d ty _ cs =>
    decide (ty ≠ TType.root) && decide (strip d = d) && decide (d ≠ []) &&
      decide ('\n' ∉ d) && tnodeListWF cs

/-- Pointwise `tnodeWF`. -/
def tnodeListWF : List TNode → Bool
  | [] => true
  | c :: cs => tnodeWF c && tnodeListWF cs

end

/-- Well-formedness of a whole `TreeNode` tree for Markdown export. -/
def mdTreeWF (t : TNode) : Bool :=
  decide (t.ttype = TType.root) && tnodeListWF t.children

/-- The invariant claimed for the selection manager: a focused node is always
selected. -/
def selInv (s : SelState) : Prop := ∀ n, s.focusedId = some n → n ∈ s.selected

/-- The operations under which the invariant actually fails: removing or
toggling the currently focused node. -/
def removesFocused (s : SelState) : SelOp → Prop
  | SelOp.remove n => s.focusedId = some n
  | SelOp.toggle n => s.focusedId = some n
  | _ => False

/-- The inclusive visible-index range between two visible nodes. -/
def rangeSlice (t : VNode) (a b : Nat) : List Nat :=
  match idxOf a (visibleIds t), idxOf b (visibleIds t) with
  | some ia, some ib =>
    (((visibleIds t)).drop (min ia ib)).take (max ia ib + 1 - min ia ib)
  | _, _ => []

/-! ## Concrete values used by counterexamples and witnesses -/

/-- Info of a plain item with content `a`. -/
def infoA : Info := ⟨['a'], NType.item, none⟩

/-- Info of a plain item with content `b`. -/
def infoB : Info := ⟨['b'], NType.item, none⟩

/-- A two-level tree: root, item `a`, grandchild item `b`, all unfolded. -/
def chainTree : Node :=
  Node.mk rootInfo false [Node.mk infoA false [Node.mk infoB false []]]

/-- The same tree with the node `a` folded. -/
def chainTreeFolded : Node :=
  Node.mk rootInfo false [Node.mk infoA true [Node.mk infoB false []]]

/-- The same tree with the leaf `b` folded. -/
def chainTreeLeafFolded : Node :=
  Node.mk rootInfo false [Node.mk infoA false [Node.mk infoB true []]]

/-- The example outline of the specification's header-cutoff property:
`Project` at depth 1, `Phase1` at depth 2, two task leaves at depth 3. -/
def exTree : TNode :=
  TNode.mk [] TType.root PStatus.notDone
    [TNode.mk ['P', 'r', 'o', 'j', 'e', 'c', 't'] TType.regular PStatus.notDone
      [TNode.mk ['P', 'h', 'a', 's', 'e', '1'] TType.regular PStatus.notDone
        [TNode.mk ['T', 'a', 's', 'k', ' ', 'A'] TType.todo PStatus.notDone [],
         TNode.mk ['T', 'a', 's', 'k', ' ', 'B'] TType.todo PStatus.done []]]]

/-- The expected Markdown export of the example outline. -/
def exMd : Str :=
  ['#', ' ', 'P', 'r', 'o', 'j', 'e', 'c', 't', '\n', '\n',
   '#', '#', ' ', 'P', 'h', 'a', 's', 'e', '1', '\n', '\n',
   '-', ' ', '[', ' ', ']', ' ', 'T', 'a', 's', 'k', ' ', 'A', '\n',
   '-', ' ', '[', 'x', ']', ' ', 'T', 'a', 's', 'k', ' ', 'B', '\n']

/-- A view tree with one non-root node (id 1). -/
def vTreeOne : VNode := VNode.mk 0 false [VNode.mk 1 false []]

/-- A view tree with three visible non-root nodes (ids 1, 2, 3). -/
def vTreeThree : VNode :=
  VNode.mk 0 false [VNode.mk 1 false [], VNode.mk 2 false [], VNode.mk 3 false []]

/-- `hello` -/
def helloStr : Str := ['h', 'e', 'l', 'l', 'o']

/-- `world #tag` -/
def worldTagStr : Str := ['w', 'o', 'r', 'l', 'd', ' ', '#', 't', 'a', 'g']

/-- `#tag` -/
def tagStr : Str := ['#', 't', 'a', 'g']

/-- A document with a single item node (id 1, content `hello`, no hashtags),
empty stacks. -/
def gDoc0 : GState :=
  ⟨[⟨1, helloStr, extractTags helloStr, NType.item, none⟩], [], []⟩

/-- `gDoc0` after applying and recording the content edit `hello` →
`world #tag` (the edit applied through `set_content`). -/
def gDoc1 : GState :=
  recordAction
    { gDoc0 with gnodes := updateNode gDoc0.gnodes 1 (fun n => setContentG n worldTagStr) }
    (GAction.editNode 1 helloStr worldTagStr)

/-- A document whose undo stack holds an action targeting the vanished node
id 99. -/
def gDocStale : GState :=
  ⟨[⟨1, helloStr, [], NType.item, none⟩], [GAction.editNode 99 helloStr worldTagStr], []⟩

/-- `[ ] x` -/
def pendSpX : Str := ['[', ' ', ']', ' ', 'x']

/-- The node id targeted by a recorded action. -/
def GAction.nid : GAction → Nat
  | GAction.editNode n _ _ => n
  | GAction.todoStatus n _ _ => n

/-- A line that ends in a non-whitespace character. -/
def endsHard (l : Str) : Bool :=
  match l.reverse with
  | [] => false
  | c :: _ => !(isWS c)

/-- The lines of the block `to_md` emits for an entry: the rendered line, plus
a trailing blank line for a header. -/
def mdLines (cutoff : Nat) (e : MdEntry) : List Str :=
  if e.edepth < cutoff then [mdRender cutoff e, []] else [mdRender cutoff e]

/-! ## Generic helpers -/

theorem sizeOf_lt_of_mem_node {c : Node} {cs : List Node} (h : c ∈ cs) :
    sizeOf c < sizeOf cs := by
  induction cs with
  | nil => cases h
  | cons d ds ih =>
    simp only [List.cons.sizeOf_spec]
    cases h with
    | head => omega
    | tail _ h2 => have := ih h2; omega

/-- Structural induction for the nested tree type `Node`. -/
theorem node_ind {P : Node → Prop}
    (h : ∀ i f cs, (∀ c ∈ cs, P c) → P (Node.mk i f cs)) : ∀ t, P t := by
  have key : ∀ n (t : Node), sizeOf t ≤ n → P t := by
    intro n
    induction n with
    | zero =>
      intro t ht
      cases t with
      | mk i f cs => simp only [Node.mk.sizeOf_spec] at ht; omega
    | succ n ih =>
      intro t ht
      cases t with
      | mk i f cs =>
        apply h
        intro d hd
        apply ih
        have h1 := sizeOf_lt_of_mem_node hd
        simp only [Node.mk.sizeOf_spec] at ht
        omega
  intro t
  exact key (sizeOf t) t le_rfl

theorem sizeOf_lt_of_mem_tnode {c : TNode} {cs : List TNode} (h : c ∈ cs) :
    sizeOf c < sizeOf cs := by
  induction cs with
  | nil => cases h
  | cons d ds ih =>
    simp only [List.cons.sizeOf_spec]
    cases h with
    | head => omega
    | tail _ h2 => have := ih h2; omega

/-- Structural induction for the nested tree type `TNode`. -/
theorem tnode_ind {P : TNode → Prop}
    (h : ∀ d ty st cs, (∀ c ∈ cs, P c) → P (TNode.mk d ty st cs)) : ∀ t, P t := by
  have key : ∀ n (t : TNode), sizeOf t ≤ n → P t := by
    intro n
    induction n with
    | zero =>
      intro t ht
      cases t with
      | mk d ty st cs => simp only [TNode.mk.sizeOf_spec] at ht; omega
    | succ n ih =>
      intro t ht
      cases t with
      | mk d ty st cs =>
        apply h
        intro c hc
        apply ih
        have h1 := sizeOf_lt_of_mem_tnode hc
        simp only [TNode.mk.sizeOf_spec] at ht
        omega
  intro t
  exact key (sizeOf t) t le_rfl

/-! ## C3: fold state and serialization -/

/-- C3: the claim "fold state never affects serialized output" is false: two
trees identical except for fold flags (here, node `a` folded in the second)
serialize differently, because `serialize_to_loglog` skips the children of a
folded node. -/
theorem c3_counterexample :
    sameButFold chainTree chainTreeFolded = true ∧
      serializeTree chainTree ≠ serializeTree chainTreeFolded := by
  decide

/-! ## C4: fold to level -/

/-- C4: after `fold_to_level(1)` on the chain tree, the depth-2 node `b` is
left unfolded (recursion stops at the first folded level), contradicting the
claim that every node at depth ≥ 1 ends up folded. -/
theorem c4_counterexample :
    foldedAt (foldToLevel 1 chainTree) [0] = some true ∧
      foldedAt (foldToLevel 1 chainTree) [0, 0] = some false := by
  decide

/-! ## C5: recursive fold toggle -/

/-- C5: toggling the fold of an unfolded node with `recursive=True` leaves its
child with `is_folded = false` while the node itself becomes folded: the child
is first set to the parent's new value and then itself toggled, so descendants
alternate with depth instead of all receiving the parent's new value. -/
theorem c5_counterexample :
    (toggleFoldRec (Node.mk infoA false [Node.mk infoB false []])).folded = true ∧
      foldedAt (toggleFoldRec (Node.mk infoA false [Node.mk infoB false []])) [0] =
        some false := by
  decide

/-! ## C6: undo/redo inverse law -/

/-- C6: evaluation of the undo/redo code on the recorded edit
`hello` → `world #tag`. Undo succeeds and restores the content, but (1) the
node's hashtags still contain `#tag`, extracted from the post-edit content,
while the prior state had no hashtags; and (2) redo after undo reports success
yet leaves the content at `hello` instead of reproducing `world #tag`, because
`undo_action` pushes the redo entry with its old/new fields swapped. -/
theorem c6_undo_redo_divergence :
    (undoStep gDoc1).1 = true ∧
      (undoStep gDoc1).2.gnodes.map GNode.gcontent = [helloStr] ∧
      (undoStep gDoc1).2.gnodes.map GNode.ghashtags = [[tagStr]] ∧
      gDoc0.gnodes.map GNode.ghashtags = [[]] ∧
      (redoStep (undoStep gDoc1).2).1 = true ∧
      (redoStep (undoStep gDoc1).2).2.gnodes.map GNode.gcontent = [helloStr] ∧
      helloStr ≠ worldTagStr := by
  decide

/-! ## C7: undo with a stale node id -/

/-- C7: the claim "the action is not retained on either stack" is false: on a
stale node id the popped action is appended back, so the undo stack afterwards
still holds it (and is in particular non-empty). -/
theorem c7_counterexample :
    (undoStep gDocStale).1 = false ∧ (undoStep gDocStale).2.undoStack ≠ [] := by
  decide

/-- C7 amended: when the action on top of the undo stack targets a node id
that no longer resolves, `undo_action` returns failure, raises no exception,
and leaves the whole state (tree and both stacks) unchanged — the action is
pushed back rather than dropped. -/
theorem c7_stale_undo_amended (s : GState) (a : GAction) (rest : List GAction)
    (hs : s.undoStack = a :: rest) (hn : findNode s.gnodes a.nid = none) :
    undoStep s = (false, s) := by
  obtain ⟨ns, us, rs⟩ := s
  simp only at hs
  subst hs
  cases a with
  | editNode nid oldC newC =>
    simp only [GAction.nid] at hn
    simp [undoStep, hn]
  | todoStatus nid oldS newS =>
    simp only [GAction.nid] at hn
    simp [undoStep, hn]

/-- Witness for the amended C7 at a concrete stale state. -/
theorem c7_amended_witness :
    gDocStale.undoStack = GAction.editNode 99 helloStr worldTagStr :: [] ∧
      findNode gDocStale.gnodes (GAction.editNode 99 helloStr worldTagStr).nid = none ∧
      undoStep gDocStale = (false, gDocStale) :=
  ⟨by decide, by decide,
    c7_stale_undo_amended gDocStale (GAction.editNode 99 helloStr worldTagStr) []
      (by decide) (by decide)⟩

/-! ## C10: TODO marker parsing -/

/-- C10: the GUI parser does not recognize the `[ ]` marker: parsing the line
`[ ] x` yields an ITEM node whose content still carries the marker, not a
pending TODO as the claim states. -/
theorem c10_counterexample :
    (mkInfo pendSpX).ntype = NType.item ∧
      (mkInfo pendSpX).content = pendSpX ∧ (mkInfo pendSpX).tstatus = none := by
  decide

/-! ## C8, C9: selection manager -/

theorem addSel_focusedId (s : SelState) (n : Nat) :
    (addToSelection s n).focusedId = s.focusedId := by
  unfold addToSelection
  split <;> rfl

theorem addSel_anchorId (s : SelState) (n : Nat) :
    (addToSelection s n).anchorId = s.anchorId := by
  unfold addToSelection
  split <;> rfl

theorem mem_addSel_self (s : SelState) (n : Nat) : n ∈ (addToSelection s n).selected := by
  unfold addToSelection
  split
  · assumption
  · simp

theorem mem_addSel_iff (s : SelState) (m n : Nat) :
    m ∈ (addToSelection s n).selected ↔ m ∈ s.selected ∨ m = n := by
  unfold addToSelection
  split
  · rename_i hn
    constructor
    · exact Or.inl
    · rintro (hm | rfl)
      · exact hm
      · exact hn
  · simp

theorem selInv_addSel {s : SelState} (h : selInv s) (n : Nat) :
    selInv (addToSelection s n) := by
  intro m hm
  rw [addSel_focusedId] at hm
  exact (mem_addSel_iff s m n).mpr (Or.inl (h m hm))

theorem foldl_addSel_focusedId (l : List Nat) (s : SelState) :
    (l.foldl addToSelection s).focusedId = s.focusedId := by
  induction l generalizing s with
  | nil => rfl
  | cons y ys ih => rw [List.foldl_cons, ih, addSel_focusedId]

theorem selInv_foldl_addSel {s : SelState} (h : selInv s) (l : List Nat) :
    selInv (l.foldl addToSelection s) := by
  induction l generalizing s with
  | nil => exact h
  | cons y ys ih => exact ih (selInv_addSel h y)

theorem clearSel_mem (s : SelState) (x : Nat) :
    x ∈ (clearSelection s).selected ↔ x ∈ s.selected ∧ s.focusedId = some x := by
  simp [clearSelection, List.mem_filter]

theorem selInv_clearSel {s : SelState} (h : selInv s) : selInv (clearSelection s) := by
  intro m hm
  have hf : (clearSelection s).focusedId = s.focusedId := rfl
  rw [hf] at hm
  exact (clearSel_mem s m).mpr ⟨h m hm, hm⟩

theorem foldl_addSel_mem (l : List Nat) (s : SelState) (x : Nat) :
    x ∈ (l.foldl addToSelection s).selected ↔ x ∈ s.selected ∨ x ∈ l := by
  induction l generalizing s with
  | nil => simp
  | cons y ys ih =>
    rw [List.foldl_cons, ih, mem_addSel_iff]
    simp only [List.mem_cons]
    tauto

theorem idxOf_isSome_of_mem {x : Nat} {l : List Nat} (h : x ∈ l) :
    (idxOf x l).isSome := by
  induction l with
  | nil => cases h
  | cons y ys ih =>
    unfold idxOf
    split
    · rfl
    · rename_i hy
      rcases List.mem_cons.mp h with rfl | h2
      · exact absurd rfl hy
      · rcases Option.isSome_iff_exists.mp (ih h2) with ⟨k, hk⟩
        rw [hk]
        rfl

theorem selectRange_found {t : VNode} {a b ia ib : Nat} (s : SelState)
    (hia : idxOf a (visibleIds t) = some ia) (hib : idxOf b (visibleIds t) = some ib) :
    selectRange t s a b =
      { (((visibleIds t).drop (min ia ib)).take (max ia ib + 1 - min ia ib)).foldl
          addToSelection (clearSelection s) with
        anchorId := some a } := by
  unfold selectRange
  rw [hia, hib]

theorem rangeSlice_found {t : VNode} {a b ia ib : Nat}
    (hia : idxOf a (visibleIds t) = some ia) (hib : idxOf b (visibleIds t) = some ib) :
    rangeSlice t a b =
      ((visibleIds t).drop (min ia ib)).take (max ia ib + 1 - min ia ib) := by
  unfold rangeSlice
  rw [hia, hib]

/-- A focused node listed in the selection satisfies the invariant. -/
theorem selInv_concrete {l : List Nat} {k : Nat} {an : Option Nat} (h : k ∈ l) :
    selInv ⟨l, some k, an⟩ := by
  intro n hn
  have hn2 : some k = some n := hn
  injection hn2 with hn3
  subst hn3
  exact h

/-- C8: the claimed invariant `focused ∈ selected` fails on a reachable state:
focus node 1 (which selects it), then `remove_from_selection(1)` — the node is
deselected while remaining focused. -/
theorem c8_counterexample :
    SelReach vTreeOne ⟨[], some 1, none⟩ ∧ ¬ selInv ⟨[], some 1, none⟩ := by
  constructor
  · have h0 : SelReach vTreeOne ⟨[], none, none⟩ := SelReach.init
    have h1 := SelReach.step (t := vTreeOne) _ (SelOp.focus (some 1)) h0
      (show (1 : Nat) ∈ treeIds vTreeOne by decide)
    have h2 := SelReach.step (t := vTreeOne) _ (SelOp.remove 1) h1
      (show (1 : Nat) ∈ treeIds vTreeOne by decide)
    have e : selStep vTreeOne (selStep vTreeOne ⟨[], none, none⟩ (SelOp.focus (some 1)))
        (SelOp.remove 1) = ⟨[], some 1, none⟩ := by decide
    rwa [e] at h2
  · intro h
    have h1 := h 1 rfl
    simp at h1

/-- C8 amended: every selection operation other than removing or toggling the
currently focused node preserves the invariant `focused ∈ selected`. -/
theorem c8_focus_selected_amended (t : VNode) (s : SelState) (op : SelOp)
    (hinv : selInv s) (hop : ¬ removesFocused s op) : selInv (selStep t s op) := by
  cases op with
  | focus n =>
    cases n with
    | none =>
      intro m hm
      have hm2 : (none : Option Nat) = some m := hm
      exact Option.noConfusion hm2
    | some k =>
      intro m hm
      have hm2 : (addToSelection { s with focusedId := some k } k).focusedId = some m := hm
      rw [addSel_focusedId] at hm2
      have hm3 : some k = some m := hm2
      injection hm3 with hm4
      subst hm4
      exact mem_addSel_self { s with focusedId := some k } k
  | add n => exact selInv_addSel hinv n
  | remove n =>
    intro m hm
    have hf : (removeFromSelection s n).focusedId = s.focusedId := by
      unfold removeFromSelection
      split <;> rfl
    have hm2 : s.focusedId = some m := by
      have : (removeFromSelection s n).focusedId = some m := hm
      rwa [hf] at this
    have hmn : m ≠ n := by
      rintro rfl
      exact hop hm2
    have hmem := hinv m hm2
    show m ∈ (removeFromSelection s n).selected
    unfold removeFromSelection
    split
    · exact (List.mem_erase_of_ne hmn).mpr hmem
    · exact hmem
  | toggle n =>
    show selInv (toggleSelection s n)
    unfold toggleSelection
    split
    · intro m hm
      have hf : (removeFromSelection s n).focusedId = s.focusedId := by
        unfold removeFromSelection
        split <;> rfl
      have hm2 : s.focusedId = some m := by
        have : (removeFromSelection s n).focusedId = some m := hm
        rwa [hf] at this
      have hmn : m ≠ n := by
        rintro rfl
        exact hop hm2
      have hmem := hinv m hm2
      show m ∈ (removeFromSelection s n).selected
      unfold removeFromSelection
      split
      all_goals first
        | exact (List.mem_erase_of_ne hmn).mpr hmem
        | exact hmem
    · exact selInv_addSel hinv n
  | clear => exact selInv_clearSel hinv
  | range a b =>
    show selInv (selectRange t s a b)
    have hinv1 : selInv (clearSelection s) := selInv_clearSel hinv
    cases hia : idxOf a (visibleIds t) with
    | none =>
      have he : selectRange t s a b = addToSelection (addToSelection (clearSelection s) a) b := by
        unfold selectRange
        rw [hia]
      rw [he]
      exact selInv_addSel (selInv_addSel hinv1 a) b
    | some ia =>
      cases hib : idxOf b (visibleIds t) with
      | none =>
        have he : selectRange t s a b
            = addToSelection (addToSelection (clearSelection s) a) b := by
          unfold selectRange
          rw [hia, hib]
        rw [he]
        exact selInv_addSel (selInv_addSel hinv1 a) b
      | some ib =>
        rw [selectRange_found s hia hib]
        intro m hm
        have hinv2 := selInv_foldl_addSel hinv1
          (((visibleIds t).drop (min ia ib)).take (max ia ib + 1 - min ia ib))
        exact hinv2 m hm

/-- Witness for the amended C8 at a concrete state and operation. -/
theorem c8_amended_witness :
    selInv (⟨[1], some 1, none⟩ : SelState) ∧
      ¬ removesFocused ⟨[1], some 1, none⟩ SelOp.clear ∧
      selInv (selStep vTreeOne ⟨[1], some 1, none⟩ SelOp.clear) :=
  ⟨selInv_concrete (List.mem_singleton.mpr rfl),
    fun h => h,
    c8_focus_selected_amended vTreeOne ⟨[1], some 1, none⟩ SelOp.clear
      (selInv_concrete (List.mem_singleton.mpr rfl)) (fun h => h)⟩

/-- C9: from a state where node 3 is focused and selected, `select_range(1,2)`
leaves node 3 selected (clearing keeps the focused node), so the selected set
is not exactly the inclusive visible-index range between the endpoints. -/
theorem c9_counterexample :
    (selectRange vTreeThree ⟨[3], some 3, none⟩ 1 2).selected = [3, 1, 2] ∧
      rangeSlice vTreeThree 1 2 = [1, 2] ∧
      (3 : Nat) ∉ rangeSlice vTreeThree 1 2 := by
  decide

/-- C9 amended: for endpoints present in the visible order, `select_range` is
symmetric in its two arguments on the selected set (only the anchor differs),
and the resulting selected set is the inclusive visible-index range between
the endpoints together with the focused node when it was previously selected
(clearing the selection spares the focused node). -/
theorem c9_select_range_amended (t : VNode) (s : SelState) (a b : Nat)
    (ha : a ∈ visibleIds t) (hb : b ∈ visibleIds t) :
    (selectRange t s a b).selected = (selectRange t s b a).selected ∧
      ∀ x, x ∈ (selectRange t s a b).selected ↔
        (x ∈ rangeSlice t a b ∨ (x ∈ s.selected ∧ s.focusedId = some x)) := by
  rcases Option.isSome_iff_exists.mp (idxOf_isSome_of_mem ha) with ⟨ia, hia⟩
  rcases Option.isSome_iff_exists.mp (idxOf_isSome_of_mem hb) with ⟨ib, hib⟩
  constructor
  · rw [selectRange_found s hia hib, selectRange_found s hib hia]
    simp only
    rw [Nat.min_comm ib ia, Nat.max_comm ib ia]
  · intro x
    rw [selectRange_found s hia hib, rangeSlice_found hia hib]
    simp only
    rw [foldl_addSel_mem, clearSel_mem]
    tauto

/-- Witness for the amended C9 at concrete endpoints and a concrete prior
selection state. -/
theorem c9_amended_witness :
    (1 : Nat) ∈ visibleIds vTreeThree ∧ (2 : Nat) ∈ visibleIds vTreeThree ∧
      ((selectRange vTreeThree ⟨[3], some 3, none⟩ 1 2).selected =
          (selectRange vTreeThree ⟨[3], some 3, none⟩ 2 1).selected ∧
        ∀ x, x ∈ (selectRange vTreeThree ⟨[3], some 3, none⟩ 1 2).selected ↔
          (x ∈ rangeSlice vTreeThree 1 2 ∨
            (x ∈ (⟨[3], some 3, none⟩ : SelState).selected ∧
              (⟨[3], some 3, none⟩ : SelState).focusedId = some x))) :=
  ⟨by decide, by decide,
    c9_select_range_amended vTreeThree ⟨[3], some 3, none⟩ 1 2 (by decide) (by decide)⟩

/-! ## C4, C5: fold operation characterizations -/

theorem foldRecursiveList_get (maxL : Nat) (cs : List Node) (cur k : Nat) :
    (foldRecursiveList maxL cs cur).get? k
      = (cs.get? k).map (fun c => foldRecursive maxL c cur) := by
  induction cs generalizing k with
  | nil => simp [foldRecursiveList]
  | cons c cs ih =>
    cases k with
    | zero => simp [foldRecursiveList]
    | succ k => simpa [foldRecursiveList] using ih k

theorem foldedAt_cons (t : Node) (k : Nat) (path : List Nat) :
    foldedAt t (k :: path) = (t.children.get? k).bind (fun c => foldedAt c path) := by
  cases t with
  | mk i f cs =>
    have e : foldedAt (Node.mk i f cs) (k :: path)
        = (match cs.get? k with
           | none => none
           | some c => foldedAt c path) := rfl
    rw [e]
    show _ = (cs.get? k).bind fun c => foldedAt c path
    cases cs.get? k <;> rfl

theorem infoAt_cons (t : Node) (k : Nat) (path : List Nat) :
    infoAt t (k :: path) = (t.children.get? k).bind (fun c => infoAt c path) := by
  cases t with
  | mk i f cs =>
    have e : infoAt (Node.mk i f cs) (k :: path)
        = (match cs.get? k with
           | none => none
           | some c => infoAt c path) := rfl
    rw [e]
    show _ = (cs.get? k).bind fun c => infoAt c path
    cases cs.get? k <;> rfl

theorem foldRecursive_foldedAt (maxL : Nat) (path : List Nat) :
    ∀ (t : Node) (cur : Nat), cur ≤ maxL →
      foldedAt (foldRecursive maxL t cur) path =
        (foldedAt t path).map (fun b =>
          if cur + path.length < maxL then false
          else if cur + path.length = maxL then true else b) := by
  induction path with
  | nil =>
    intro t cur hcur
    cases t with
    | mk i f cs =>
      unfold foldRecursive
      by_cases h : maxL ≤ cur
      · have he : cur = maxL := le_antisymm hcur h
        subst he
        simp [foldedAt, Node.folded, h]
      · simp only [if_neg h, foldedAt, Node.folded]
        have h1 : cur + ([] : List Nat).length < maxL := by
          simp only [List.length_nil, Nat.add_zero]
          omega
        simp [h1, h]
  | cons k rest ih =>
    intro t cur hcur
    cases t with
    | mk i f cs =>
      unfold foldRecursive
      by_cases h : maxL ≤ cur
      · simp only [if_pos h]
        have he : cur = maxL := le_antisymm hcur h
        subst he
        rw [foldedAt_cons, foldedAt_cons]
        simp only [Node.children]
        cases hc : cs.get? k with
        | none => simp
        | some c =>
          simp only [Option.some_bind]
          cases hfc : foldedAt c rest with
          | none => simp
          | some b =>
            have h1 : ¬ (cur + (k :: rest).length < cur) := by omega
            have h2 : ¬ (cur + (k :: rest).length = cur) := by
              simp only [List.length_cons]
              omega
            simp [h1, h2]
      · simp only [if_neg h]
        rw [foldedAt_cons, foldedAt_cons]
        simp only [Node.children]
        rw [foldRecursiveList_get]
        cases hc : cs.get? k with
        | none => simp
        | some c =>
          simp only [Option.map_some', Option.some_bind]
          rw [ih c (cur + 1) (by omega)]
          have harith : cur + 1 + rest.length = cur + (k :: rest).length := by
            simp only [List.length_cons]
            omega
          simp only [harith]

theorem foldRecursiveList_idem_aux (maxL : Nat) (cs : List Node)
    (ih : ∀ c ∈ cs, ∀ cur,
      foldRecursive maxL (foldRecursive maxL c cur) cur = foldRecursive maxL c cur) :
    ∀ cur, foldRecursiveList maxL (foldRecursiveList maxL cs cur) cur
      = foldRecursiveList maxL cs cur := by
  induction cs with
  | nil => intro cur; rfl
  | cons c cs ihl =>
    intro cur
    show foldRecursive maxL (foldRecursive maxL c cur) cur
        :: foldRecursiveList maxL (foldRecursiveList maxL cs cur) cur
      = foldRecursive maxL c cur :: foldRecursiveList maxL cs cur
    rw [ih c (List.mem_cons_self c cs) cur,
      ihl (fun d hd => ih d (List.mem_cons_of_mem c hd)) cur]

theorem foldRecursive_idem (maxL : Nat) :
    ∀ (t : Node) (cur : Nat),
      foldRecursive maxL (foldRecursive maxL t cur) cur = foldRecursive maxL t cur := by
  intro t
  induction t using node_ind with
  | _ i f cs ih =>
    intro cur
    by_cases h : maxL ≤ cur
    · show foldRecursive maxL (if maxL ≤ cur then Node.mk i true cs
          else Node.mk i false (foldRecursiveList maxL cs (cur + 1))) cur = _
      simp only [if_pos h]
      unfold foldRecursive
      simp [h]
    · show foldRecursive maxL (if maxL ≤ cur then Node.mk i true cs
          else Node.mk i false (foldRecursiveList maxL cs (cur + 1))) cur = _
      simp only [if_neg h]
      unfold foldRecursive
      simp only [if_neg h]
      rw [foldRecursiveList_idem_aux maxL cs (fun c hc cur2 => ih c hc cur2) (cur + 1)]

/-- C4 amended: `fold_to_level(L)` unfolds every node at depth < L, folds
every node at depth exactly L, and leaves the fold state of deeper nodes
unchanged (recursion stops at the first folded level); the operation is
idempotent and is not a toggle. -/
theorem c4_fold_to_level_amended :
    (∀ (t : Node) (L : Nat) (path : List Nat),
      foldedAt (foldToLevel L t) path =
        (foldedAt t path).map (fun b =>
          if path.length < L then false else if path.length = L then true else b)) ∧
      ∀ (t : Node) (L : Nat), foldToLevel L (foldToLevel L t) = foldToLevel L t := by
  constructor
  · intro t L path
    have h := foldRecursive_foldedAt L path t 0 (Nat.zero_le L)
    simpa using h
  · intro t L
    exact foldRecursive_idem L t 0

theorem toggleFromList_get (v : Bool) (cs : List Node) (k : Nat) :
    (toggleFromList v cs).get? k = (cs.get? k).map (toggleFrom v) := by
  induction cs generalizing k with
  | nil => simp [toggleFromList]
  | cons c cs ih =>
    cases k with
    | zero => simp [toggleFromList]
    | succ k => simpa [toggleFromList] using ih k

theorem toggleFrom_foldedAt (path : List Nat) :
    ∀ (t : Node) (f : Bool),
      foldedAt (toggleFrom f t) path =
        (foldedAt t path).map (fun _ => if path.length % 2 = 0 then !f else f) := by
  induction path with
  | nil =>
    intro t f
    cases t with
    | mk i fo cs => simp [toggleFrom, foldedAt, Node.folded]
  | cons k rest ih =>
    intro t f
    cases t with
    | mk i fo cs =>
      show foldedAt (Node.mk i (!f) (toggleFromList (!f) cs)) (k :: rest) = _
      rw [foldedAt_cons, foldedAt_cons]
      simp only [Node.children]
      rw [toggleFromList_get]
      cases hc : cs.get? k with
      | none => simp
      | some c =>
        simp only [Option.map_some', Option.some_bind]
        rw [ih c (!f)]
        cases hfc : foldedAt c rest with
        | none => simp
        | some b =>
          simp only [Option.map_some']
          rcases Nat.mod_two_eq_zero_or_one rest.length with h | h
          · have h2 : (rest.length + 1) % 2 = 1 := by omega
            simp [h, h2]
          · have h2 : (rest.length + 1) % 2 = 0 := by omega
            simp [h, h2]

theorem toggleFrom_infoAt (path : List Nat) :
    ∀ (t : Node) (f : Bool), infoAt (toggleFrom f t) path = infoAt t path := by
  induction path with
  | nil =>
    intro t f
    cases t with
    | mk i fo cs => simp [toggleFrom, infoAt, Node.info]
  | cons k rest ih =>
    intro t f
    cases t with
    | mk i fo cs =>
      show infoAt (Node.mk i (!f) (toggleFromList (!f) cs)) (k :: rest) = _
      rw [infoAt_cons, infoAt_cons]
      simp only [Node.children]
      rw [toggleFromList_get]
      cases hc : cs.get? k with
      | none => simp
      | some c => simpa using ih c (!f)

/-- C5 amended: `toggle_fold(recursive=True)` flips the node's own flag to the
new value `v`, and every descendant receives `v` at even distance from the
node and `!v` at odd distance, regardless of the descendant's prior flag
(children are first set to `v` and then themselves toggled recursively);
contents, types and statuses are untouched. -/
theorem c5_toggle_fold_amended :
    ∀ (t : Node) (path : List Nat),
      foldedAt (toggleFoldRec t) path =
        (foldedAt t path).map
          (fun _ => if path.length % 2 = 0 then !t.folded else t.folded) ∧
      infoAt (toggleFoldRec t) path = infoAt t path := by
  intro t path
  exact ⟨toggleFrom_foldedAt path t t.folded, toggleFrom_infoAt path t t.folded⟩

/-! ## A toolkit for `strip` and friends -/

theorem blank_iff_all {s : Str} : blank s = true ↔ ∀ c ∈ s, isWS c = true := by
  simp [blank, List.all_eq_true]

theorem blank_append {a b : Str} : blank (a ++ b) = (blank a && blank b) := by
  simp [blank, List.all_append]

theorem lstrip_cons_ws {c : Char} {l : Str} (h : isWS c = true) :
    lstrip (c :: l) = lstrip l := by
  simp [lstrip, List.dropWhile_cons, h]

theorem lstrip_cons_not {c : Char} {l : Str} (h : isWS c = false) :
    lstrip (c :: l) = c :: l := by
  simp [lstrip, List.dropWhile_cons, h]

theorem lstrip_append_blank {a : Str} (b : Str) (h : blank a = true) :
    lstrip (a ++ b) = lstrip b := by
  induction a with
  | nil => rfl
  | cons c cr ih =>
    rw [blank_iff_all] at h
    rw [List.cons_append, lstrip_cons_ws (h c (List.mem_cons_self c cr))]
    exact ih (blank_iff_all.mpr fun d hd => h d (List.mem_cons_of_mem c hd))

theorem lstrip_eq_nil_iff {l : Str} : lstrip l = [] ↔ blank l = true := by
  rw [blank_iff_all]
  exact List.dropWhile_eq_nil_iff

theorem lstrip_idem (l : Str) : lstrip (lstrip l) = lstrip l := by
  induction l with
  | nil => rfl
  | cons c cr ih =>
    by_cases h : isWS c = true
    · rw [lstrip_cons_ws h, ih]
    · have h2 : isWS c = false := by
        cases hc : isWS c
        · rfl
        · exact absurd hc h
      rw [lstrip_cons_not h2, lstrip_cons_not h2]

theorem lstrip_head_not_ws {l : Str} {c : Char} {r : Str} (h : lstrip l = c :: r) :
    isWS c = false := by
  induction l with
  | nil => cases h
  | cons d dr ih =>
    by_cases hd : isWS d = true
    · rw [lstrip_cons_ws hd] at h
      exact ih h
    · have hd2 : isWS d = false := by
        cases hc : isWS d
        · rfl
        · exact absurd hc hd
      rw [lstrip_cons_not hd2] at h
      cases h
      exact hd2

theorem rstrip_eq_nil_iff {l : Str} : rstrip l = [] ↔ blank l = true := by
  unfold rstrip
  rw [List.reverse_eq_nil_iff, List.dropWhile_eq_nil_iff, blank_iff_all]
  constructor
  · intro h c hc
    exact h c (List.mem_reverse.mpr hc)
  · intro h c hc
    exact h c (List.mem_reverse.mp hc)

theorem rstrip_append_blank {b : Str} (a : Str) (h : blank b = true) :
    rstrip (a ++ b) = rstrip a := by
  unfold rstrip
  rw [List.reverse_append, List.dropWhile_append]
  have hb : (b.reverse.dropWhile isWS).isEmpty = true := by
    rw [List.isEmpty_iff, List.dropWhile_eq_nil_iff]
    intro c hc
    exact blank_iff_all.mp h c (List.mem_reverse.mp hc)
  rw [if_pos hb]

theorem rstrip_append_of_ne {b : Str} (a : Str) (h : rstrip b ≠ []) :
    rstrip (a ++ b) = a ++ rstrip b := by
  unfold rstrip
  rw [List.reverse_append, List.dropWhile_append]
  have hb : (b.reverse.dropWhile isWS).isEmpty = false := by
    cases hd : b.reverse.dropWhile isWS with
    | nil =>
      exfalso
      apply h
      unfold rstrip
      rw [hd]
      rfl
    | cons x xs => rfl
  rw [if_neg (by simp [hb]), List.reverse_append, List.reverse_reverse]

theorem endsHard_rstrip_self {l : Str} (h : endsHard l = true) : rstrip l = l := by
  unfold endsHard at h
  unfold rstrip
  cases hl : l.reverse with
  | nil =>
    rw [hl] at h
    exact Bool.noConfusion h
  | cons c cr =>
    rw [hl] at h
    rw [List.dropWhile_cons, if_neg (by simp_all), ← hl, List.reverse_reverse]

theorem endsHard_append {b : Str} (a : Str) (h : b ≠ []) :
    endsHard (a ++ b) = endsHard b := by
  unfold endsHard
  rw [List.reverse_append]
  cases hb : b.reverse with
  | nil => exact absurd (by simpa using congrArg List.reverse hb) h
  | cons c cr => rfl

theorem rstrip_append_hard {a : Str} (s : Str) (ha : endsHard a = true) :
    rstrip (a ++ s) = a ++ rstrip s := by
  by_cases h : rstrip s = []
  · rw [h, List.append_nil, rstrip_append_blank a (rstrip_eq_nil_iff.mp h)]
    exact endsHard_rstrip_self ha
  · exact rstrip_append_of_ne a h

theorem rstrip_prefix (l : Str) : rstrip l <+: l := by
  have h : List.dropWhile isWS l.reverse <:+ (l.reverse.reverse).reverse := by
    rw [List.reverse_reverse]
    exact List.dropWhile_suffix isWS
  have h2 := List.reverse_prefix.mpr (List.dropWhile_suffix (l := l.reverse) isWS)
  rwa [List.reverse_reverse] at h2

theorem rstrip_head_eq {l : Str} {c : Char} {r : Str} (h : rstrip l = c :: r) :
    ∃ r2, l = c :: r2 := by
  rcases rstrip_prefix l with ⟨t, ht⟩
  rw [h] at ht
  exact ⟨r ++ t, ht.symm⟩

theorem rstrip_idem (l : Str) : rstrip (rstrip l) = rstrip l := by
  cases h : l.reverse.dropWhile isWS with
  | nil =>
    have h1 : rstrip l = [] := by
      unfold rstrip
      rw [h]
      rfl
    rw [h1]
    rfl
  | cons c cr =>
    have hc : isWS c = false := lstrip_head_not_ws (l := l.reverse) h
    have h1 : rstrip l = cr.reverse ++ [c] := by
      unfold rstrip
      rw [h]
      simp
    rw [h1]
    apply endsHard_rstrip_self
    rw [endsHard_append _ (by simp)]
    simp [endsHard, hc]

theorem lstrip_rstrip_of_head {l : Str} (h : lstrip l = l) :
    lstrip (rstrip l) = rstrip l := by
  cases hr : rstrip l with
  | nil => rfl
  | cons c cr =>
    rcases rstrip_head_eq hr with ⟨r2, hl⟩
    have hc : isWS c = false := by
      apply lstrip_head_not_ws (l := l)
      rw [h, hl]
    rw [lstrip_cons_not hc]

theorem strip_idem (l : Str) : strip (strip l) = strip l := by
  unfold strip
  rw [lstrip_rstrip_of_head (lstrip_idem l), rstrip_idem]

theorem strip_eq_nil_iff {l : Str} : strip l = [] ↔ blank l = true := by
  unfold strip
  rw [rstrip_eq_nil_iff]
  constructor
  · intro h
    have hdecomp := List.takeWhile_append_dropWhile (p := isWS) (l := l)
    have : blank l = blank (l.takeWhile isWS ++ l.dropWhile isWS) := by rw [hdecomp]
    rw [this, blank_append]
    have h1 : blank (l.takeWhile isWS) = true := by
      rw [blank_iff_all]
      intro c hc
      exact List.mem_takeWhile_imp hc
    rw [h1]
    simpa using h
  · intro h
    rw [blank_iff_all] at h
    rw [blank_iff_all]
    intro c hc
    exact h c ((List.dropWhile_sublist isWS).subset hc)

theorem lstrip_of_strip_self {l : Str} (h : strip l = l) : lstrip l = l := by
  have hs : (lstrip l).Sublist l := List.dropWhile_sublist isWS
  have h1 : (rstrip (lstrip l)).length ≤ (lstrip l).length :=
    ( rstrip_prefix (lstrip l)).sublist.length_le
  have h2 : (lstrip l).length ≤ l.length := hs.length_le
  have h3 : l.length = (rstrip (lstrip l)).length := by
    conv_lhs => rw [← h]
    rfl
  exact hs.eq_of_length (by omega)

theorem rstrip_of_strip_self {l : Str} (h : strip l = l) : rstrip l = l := by
  have h1 := lstrip_of_strip_self h
  calc rstrip l = rstrip (lstrip l) := by rw [h1]
    _ = strip l := rfl
    _ = l := h

theorem strip_rstrip (s : Str) : strip (rstrip s) = strip s := by
  by_cases hb : blank s = true
  · rw [rstrip_eq_nil_iff.mpr hb]
    have : strip s = [] := strip_eq_nil_iff.mpr hb
    rw [this]
    rfl
  · have hd : lstrip s ≠ [] := fun he => hb (lstrip_eq_nil_iff.mp he)
    have hdecomp := List.takeWhile_append_dropWhile (p := isWS) (l := s)
    have hw : blank (s.takeWhile isWS) = true := by
      rw [blank_iff_all]
      intro c hc
      exact List.mem_takeWhile_imp hc
    have hrd : rstrip (lstrip s) ≠ [] := by
      intro he
      apply hb
      have := rstrip_eq_nil_iff.mp he
      have hb2 : blank s = blank (s.takeWhile isWS ++ s.dropWhile isWS) := by rw [hdecomp]
      rw [hb2, blank_append, hw]
      simpa using this
    have hrs : rstrip s = s.takeWhile isWS ++ rstrip (lstrip s) := by
      conv_lhs => rw [← hdecomp]
      exact rstrip_append_of_ne _ hrd
    rw [hrs]
    unfold strip
    rw [lstrip_append_blank _ hw]
    rw [lstrip_rstrip_of_head (lstrip_idem s), rstrip_idem]

theorem strip_lstrip (s : Str) : strip (lstrip s) = strip s := by
  unfold strip
  rw [lstrip_idem]

/-! ## C3 amended: serialization ignores fold flags of childless nodes -/

theorem childSplit_eq_aux (cs1 : List Node)
    (ih : ∀ c ∈ cs1, ∀ t2 lvl, eqButLeafFold c t2 = true →
      serializeNode c lvl = serializeNode t2 lvl) :
    ∀ cs2 lvl, eqButLeafFoldList cs1 cs2 = true → childSplit cs1 lvl = childSplit cs2 lvl := by
  induction cs1 with
  | nil =>
    intro cs2 lvl h
    cases cs2 with
    | nil => rfl
    | cons d ds => exact absurd h (by simp [eqButLeafFoldList])
  | cons c cr ihl =>
    intro cs2 lvl h
    cases cs2 with
    | nil => exact absurd h (by simp [eqButLeafFoldList])
    | cons d ds =>
      have h2 : eqButLeafFold c d = true ∧ eqButLeafFoldList cr ds = true := by
        simpa [eqButLeafFoldList, Bool.and_eq_true] using h
      show splitNl (serializeNode c lvl) ++ childSplit cr lvl
        = splitNl (serializeNode d lvl) ++ childSplit ds lvl
      rw [ih c (List.mem_cons_self c cr) d lvl h2.1,
        ihl (fun e he => ih e (List.mem_cons_of_mem c he)) ds lvl h2.2]

/-- C3 amended: serialization is unaffected by the fold flags of childless
nodes; two trees that agree on contents, types, statuses, shape and on the
fold flags of all nodes that have children serialize identically (a folded
node's own line is still emitted, only its descendants are dropped). -/
theorem c3_fold_view_only_amended :
    ∀ (t1 t2 : Node) (lvl : Nat), eqButLeafFold t1 t2 = true →
      serializeNode t1 lvl = serializeNode t2 lvl := by
  intro t1
  induction t1 using node_ind with
  | _ i1 f1 cs1 ih =>
    intro t2 lvl h
    cases t2 with
    | mk i2 f2 cs2 =>
      have h2 : (i1 = i2 ∧ (f1 = f2 ∨ (cs1 = [] ∧ cs2 = []))) ∧
          eqButLeafFoldList cs1 cs2 = true := by
        simpa [eqButLeafFold, Bool.and_eq_true, Bool.or_eq_true, decide_eq_true_eq,
          List.isEmpty_iff] using h
      obtain ⟨⟨hi, hf⟩, hcs⟩ := h2
      subst hi
      rcases hf with hf | ⟨hc1, hc2⟩
      · subst hf
        show joinNl _ = joinNl _
        rw [childSplit_eq_aux cs1 ih cs2 _ hcs]
      · subst hc1
        subst hc2
        show joinNl _ = joinNl _
        cases f1 <;> cases f2 <;> rfl

/-- Witness for the amended C3: folding the leaf `b` does not change the
serialized text. -/
theorem c3_amended_witness :
    eqButLeafFold chainTree chainTreeLeafFolded = true ∧
      serializeNode chainTree 0 = serializeNode chainTreeLeafFolded 0 :=
  ⟨by decide, c3_fold_view_only_amended chainTree chainTreeLeafFolded 0 (by decide)⟩

/-! ## C10 amended: marker recognition in the two parsers -/

theorem strip_marker_append {m : Str} {c : Char} {r : Str} (s : Str) (hm : m = c :: r)
    (hc : isWS c = false) (hh : endsHard m = true) :
    strip (m ++ s) = m ++ rstrip s := by
  unfold strip
  rw [hm, List.cons_append, lstrip_cons_not hc, ← List.cons_append, ← hm,
    rstrip_append_hard s hh]

theorem isPrefixOf_cons_same {a : Char} {as bs : List Char} :
    (a :: as).isPrefixOf (a :: bs) = as.isPrefixOf bs := by
  simp [List.isPrefixOf]

theorem isPrefixOf_cons_ne {a b : Char} {as bs : List Char} (h : a ≠ b) :
    (a :: as).isPrefixOf (b :: bs) = false := by
  rw [Bool.eq_false_iff]
  intro hcon
  exact h (List.cons_prefix_iff.mp (List.isPrefixOf_iff_prefix.mp hcon)).1

theorem toLower_lbrack : Char.toLower '[' = '[' := by decide

theorem toLower_rbrack : Char.toLower ']' = ']' := by decide

theorem toLower_space : Char.toLower ' ' = ' ' := by decide

theorem toLower_x : Char.toLower 'x' = 'x' := by decide

theorem toLower_dash : Char.toLower '-' = '-' := by decide

theorem toLower_qmark : Char.toLower '?' = '?' := by decide

theorem drop_marker {m : Str} (x : Str) (n : Nat) (hn : m.length = n) :
    (m ++ x).drop n = x := by
  subst hn
  exact List.drop_left m x

/-- C10 amended: the markers `[]`, `[x]`, `[-]`, `[?]` are recognized by both
parsers and produce a TODO node of the matching status with the marker removed
from the content; the marker `[ ]` produces a pending TODO in the CLI parser
(`TreeNode`) but is not recognized by the GUI parser (`LogLogNode`), which
leaves the node an ITEM with the marker still at the front of its content.
(The hypothesis rules out a leading dash in the remainder, which the CLI
parser would additionally strip.) -/
theorem c10_todo_markers_amended (s : Str)
    (hd : (['-'] : Str).isPrefixOf ((strip s).map Char.toLower) = false) :
    mkInfo (mkPend ++ s) = ⟨strip s, NType.todo, some TStatus.pending⟩ ∧
      mkInfo (mkDone ++ s) = ⟨strip s, NType.todo, some TStatus.complete⟩ ∧
      mkInfo (mkProg ++ s) = ⟨strip s, NType.todo, some TStatus.progress⟩ ∧
      mkInfo (mkUnk ++ s) = ⟨strip s, NType.todo, some TStatus.unknown⟩ ∧
      mkInfo (mkPendSp ++ s) = ⟨mkPendSp ++ rstrip s, NType.item, none⟩ ∧
      tnClassify (mkPend ++ s) = ⟨TType.todo, some PStatus.notDone, strip s⟩ ∧
      tnClassify (mkPendSp ++ s) = ⟨TType.todo, some PStatus.notDone, strip s⟩ ∧
      tnClassify (mkDone ++ s) = ⟨TType.todo, some PStatus.done, strip s⟩ ∧
      tnClassify (mkProg ++ s) = ⟨TType.todo, some PStatus.inProg, strip s⟩ ∧
      tnClassify (mkUnk ++ s) = ⟨TType.todo, some PStatus.unknownSt, strip s⟩ := by
  have epend : strip (mkPend ++ s) = mkPend ++ rstrip s :=
    strip_marker_append s rfl (by decide) (by decide)
  have edone : strip (mkDone ++ s) = mkDone ++ rstrip s :=
    strip_marker_append s rfl (by decide) (by decide)
  have eprog : strip (mkProg ++ s) = mkProg ++ rstrip s :=
    strip_marker_append s rfl (by decide) (by decide)
  have eunk : strip (mkUnk ++ s) = mkUnk ++ rstrip s :=
    strip_marker_append s rfl (by decide) (by decide)
  have ependsp : strip (mkPendSp ++ s) = mkPendSp ++ rstrip s :=
    strip_marker_append s rfl (by decide) (by decide)
  refine ⟨?_, ?_, ?_, ?_, ?_, ?_, ?_, ?_, ?_, ?_⟩
  · unfold mkInfo
    rw [epend]
    rw [if_pos (List.isPrefixOf_iff_prefix.mpr (List.prefix_append _ _))]
    rw [drop_marker (m := mkPend) (rstrip s) 2 rfl, strip_rstrip]
  · unfold mkInfo
    rw [edone]
    rw [show mkDone ++ rstrip s = '[' :: 'x' :: (']' :: rstrip s) from rfl,
      show mkPend = '[' :: [']'] from rfl, isPrefixOf_cons_same,
      isPrefixOf_cons_ne (by decide), if_neg (by simp)]
    rw [show ('[' : Char) :: 'x' :: (']' :: rstrip s) = mkDone ++ rstrip s from rfl]
    rw [if_pos (List.isPrefixOf_iff_prefix.mpr (List.prefix_append _ _))]
    rw [drop_marker (m := mkDone) (rstrip s) 3 rfl, strip_rstrip]
  · unfold mkInfo
    rw [eprog]
    rw [show mkProg ++ rstrip s = '[' :: '-' :: (']' :: rstrip s) from rfl,
      show mkPend = '[' :: [']'] from rfl, isPrefixOf_cons_same,
      isPrefixOf_cons_ne (by decide), if_neg (by simp)]
    rw [show mkDone = '[' :: 'x' :: [']'] from rfl, isPrefixOf_cons_same,
      isPrefixOf_cons_ne (by decide), if_neg (by simp)]
    rw [show ('[' : Char) :: '-' :: (']' :: rstrip s) = mkProg ++ rstrip s from rfl]
    rw [if_pos (List.isPrefixOf_iff_prefix.mpr (List.prefix_append _ _))]
    rw [drop_marker (m := mkProg) (rstrip s) 3 rfl, strip_rstrip]
  · unfold mkInfo
    rw [eunk]
    rw [show mkUnk ++ rstrip s = '[' :: '?' :: (']' :: rstrip s) from rfl,
      show mkPend = '[' :: [']'] from rfl, isPrefixOf_cons_same,
      isPrefixOf_cons_ne (by decide), if_neg (by simp)]
    rw [show mkDone = '[' :: 'x' :: [']'] from rfl, isPrefixOf_cons_same,
      isPrefixOf_cons_ne (by decide), if_neg (by simp)]
    rw [show mkProg = '[' :: '-' :: [']'] from rfl, isPrefixOf_cons_same,
      isPrefixOf_cons_ne (by decide), if_neg (by simp)]
    rw [show ('[' : Char) :: '?' :: (']' :: rstrip s) = mkUnk ++ rstrip s from rfl]
    rw [if_pos (List.isPrefixOf_iff_prefix.mpr (List.prefix_append _ _))]
    rw [drop_marker (m := mkUnk) (rstrip s) 3 rfl, strip_rstrip]
  · unfold mkInfo
    rw [ependsp]
    rw [show mkPendSp ++ rstrip s = '[' :: ' ' :: (']' :: rstrip s) from rfl,
      show mkPend = '[' :: [']'] from rfl, isPrefixOf_cons_same,
      isPrefixOf_cons_ne (by decide), if_neg (by simp)]
    rw [show mkDone = '[' :: 'x' :: [']'] from rfl, isPrefixOf_cons_same,
      isPrefixOf_cons_ne (by decide), if_neg (by simp)]
    rw [show mkProg = '[' :: '-' :: [']'] from rfl, isPrefixOf_cons_same,
      isPrefixOf_cons_ne (by decide), if_neg (by simp)]
    rw [show mkUnk = '[' :: '?' :: [']'] from rfl, isPrefixOf_cons_same,
      isPrefixOf_cons_ne (by decide), if_neg (by simp)]
  · have ht : tnIsTodo (mkPend ++ s) = true := by simp [tnIsTodo, mkPend]
    unfold tnClassify
    rw [if_pos ht]
    have hmap : (mkPend ++ s).map Char.toLower = '[' :: ']' :: s.map Char.toLower := by
      show Char.toLower '[' :: Char.toLower ']' :: s.map Char.toLower = _
      rw [toLower_lbrack, toLower_rbrack]
    unfold tnTodoStatus
    rw [hmap]
    rw [show ('[' : Char) :: ']' :: s.map Char.toLower
        = mkPend ++ s.map Char.toLower from rfl]
    rw [if_pos (List.isPrefixOf_iff_prefix.mpr (List.prefix_append _ _))]
    rw [drop_marker (m := mkPend) s 2 rfl]
    unfold tnDashStrip
    rw [if_neg (by simp [hd])]
  · have ht : tnIsTodo (mkPendSp ++ s) = true := by simp [tnIsTodo, mkPendSp]
    unfold tnClassify
    rw [if_pos ht]
    have hmap : (mkPendSp ++ s).map Char.toLower
        = '[' :: ' ' :: (']' :: s.map Char.toLower) := by
      show Char.toLower '[' :: Char.toLower ' ' :: Char.toLower ']' :: s.map Char.toLower
        = _
      rw [toLower_lbrack, toLower_space, toLower_rbrack]
    unfold tnTodoStatus
    rw [hmap]
    rw [show mkPend = '[' :: [']'] from rfl, isPrefixOf_cons_same,
      isPrefixOf_cons_ne (by decide), if_neg (by simp)]
    rw [show ('[' : Char) :: ' ' :: (']' :: s.map Char.toLower)
        = mkPendSp ++ s.map Char.toLower from rfl]
    rw [if_pos (List.isPrefixOf_iff_prefix.mpr (List.prefix_append _ _))]
    rw [drop_marker (m := mkPendSp) s 3 rfl]
    unfold tnDashStrip
    rw [if_neg (by simp [hd])]
  · have ht : tnIsTodo (mkDone ++ s) = true := by simp [tnIsTodo, mkDone]
    unfold tnClassify
    rw [if_pos ht]
    have hmap : (mkDone ++ s).map Char.toLower
        = '[' :: 'x' :: (']' :: s.map Char.toLower) := by
      show Char.toLower '[' :: Char.toLower 'x' :: Char.toLower ']' :: s.map Char.toLower
        = _
      rw [toLower_lbrack, toLower_x, toLower_rbrack]
    unfold tnTodoStatus
    rw [hmap]
    rw [show mkPend = '[' :: [']'] from rfl, isPrefixOf_cons_same,
      isPrefixOf_cons_ne (by decide), if_neg (by simp)]
    rw [show mkPendSp = '[' :: ' ' :: [']'] from rfl, isPrefixOf_cons_same,
      isPrefixOf_cons_ne (by decide), if_neg (by simp)]
    rw [show ('[' : Char) :: 'x' :: (']' :: s.map Char.toLower)
        = mkDone ++ s.map Char.toLower from rfl]
    rw [if_pos (List.isPrefixOf_iff_prefix.mpr (List.prefix_append _ _))]
    rw [drop_marker (m := mkDone) s 3 rfl]
    unfold tnDashStrip
    rw [if_neg (by simp [hd])]
  · have ht : tnIsTodo (mkProg ++ s) = true := by simp [tnIsTodo, mkProg]
    unfold tnClassify
    rw [if_pos ht]
    have hmap : (mkProg ++ s).map Char.toLower
        = '[' :: '-' :: (']' :: s.map Char.toLower) := by
      show Char.toLower '[' :: Char.toLower '-' :: Char.toLower ']' :: s.map Char.toLower
        = _
      rw [toLower_lbrack, toLower_dash, toLower_rbrack]
    unfold tnTodoStatus
    rw [hmap]
    rw [show mkPend = '[' :: [']'] from rfl, isPrefixOf_cons_same,
      isPrefixOf_cons_ne (by decide), if_neg (by simp)]
    rw [show mkPendSp = '[' :: ' ' :: [']'] from rfl, isPrefixOf_cons_same,
      isPrefixOf_cons_ne (by decide), if_neg (by simp)]
    rw [show mkDone = '[' :: 'x' :: [']'] from rfl, isPrefixOf_cons_same,
      isPrefixOf_cons_ne (by decide), if_neg (by simp)]
    rw [show ('[' : Char) :: '-' :: (']' :: s.map Char.toLower)
        = mkProg ++ s.map Char.toLower from rfl]
    rw [if_pos (List.isPrefixOf_iff_prefix.mpr (List.prefix_append _ _))]
    rw [drop_marker (m := mkProg) s 3 rfl]
    unfold tnDashStrip
    rw [if_neg (by simp [hd])]
  · have ht : tnIsTodo (mkUnk ++ s) = true := by simp [tnIsTodo, mkUnk]
    unfold tnClassify
    rw [if_pos ht]
    have hmap : (mkUnk ++ s).map Char.toLower
        = '[' :: '?' :: (']' :: s.map Char.toLower) := by
      show Char.toLower '[' :: Char.toLower '?' :: Char.toLower ']' :: s.map Char.toLower
        = _
      rw [toLower_lbrack, toLower_qmark, toLower_rbrack]
    unfold tnTodoStatus
    rw [hmap]
    rw [show mkPend = '[' :: [']'] from rfl, isPrefixOf_cons_same,
      isPrefixOf_cons_ne (by decide), if_neg (by simp)]
    rw [show mkPendSp = '[' :: ' ' :: [']'] from rfl, isPrefixOf_cons_same,
      isPrefixOf_cons_ne (by decide), if_neg (by simp)]
    rw [show mkDone = '[' :: 'x' :: [']'] from rfl, isPrefixOf_cons_same,
      isPrefixOf_cons_ne (by decide), if_neg (by simp)]
    rw [show mkProg = '[' :: '-' :: [']'] from rfl, isPrefixOf_cons_same,
      isPrefixOf_cons_ne (by decide), if_neg (by simp)]
    rw [drop_marker (m := mkUnk) s 3 rfl]
    unfold tnDashStrip
    rw [if_neg (by simp [hd])]

/-- Witness for the amended C10 at the remainder ` x`. -/
theorem c10_amended_witness :
    (['-'] : Str).isPrefixOf ((strip [' ', 'x']).map Char.toLower) = false ∧
      mkInfo (mkPend ++ [' ', 'x']) = ⟨strip [' ', 'x'], NType.todo, some TStatus.pending⟩ ∧
      tnClassify (mkPendSp ++ [' ', 'x'])
        = ⟨TType.todo, some PStatus.notDone, strip [' ', 'x']⟩ ∧
      mkInfo (mkPendSp ++ [' ', 'x']) = ⟨mkPendSp ++ rstrip [' ', 'x'], NType.item, none⟩ :=
  ⟨by decide,
    (c10_todo_markers_amended [' ', 'x'] (by decide)).1,
    (c10_todo_markers_amended [' ', 'x'] (by decide)).2.2.2.2.2.2.1,
    (c10_todo_markers_amended [' ', 'x'] (by decide)).2.2.2.2.1⟩

/-! ## C2: Markdown export -/

theorem toMdList_blocks (hl sld : Nat) (cs : List TNode)
    (ih : ∀ c ∈ cs, ∀ cur, toMdNode c hl cur sld
      = ((mdEntriesNode c cur).map (mdBlock (min sld (hl + 1)))).flatten) :
    ∀ cur, toMdList cs hl cur sld
      = ((mdEntriesList cs cur).map (mdBlock (min sld (hl + 1)))).flatten := by
  induction cs with
  | nil => intro cur; rfl
  | cons c cr ihl =>
    intro cur
    show toMdNode c hl cur sld ++ toMdList cr hl cur sld = _
    rw [ih c (List.mem_cons_self c cr) cur,
      ihl (fun e he => ih e (List.mem_cons_of_mem c he)) cur]
    show _ = ((mdEntriesNode c cur ++ mdEntriesList cr cur).map
      (mdBlock (min sld (hl + 1)))).flatten
    rw [List.map_append, List.flatten_append]

theorem toMdNode_blocks (hl sld : Nat) :
    ∀ (t : TNode) (cur : Nat), toMdNode t hl cur sld
      = ((mdEntriesNode t cur).map (mdBlock (min sld (hl + 1)))).flatten := by
  intro t
  induction t using tnode_ind with
  | _ d ty st cs ih =>
    intro cur
    show (if cur < min sld (hl + 1) then
        List.replicate cur '#' ++
          ' ' :: (if ty = TType.todo then mdCheck st ++ ' ' :: d else d) ++ ['\n', '\n']
       else
        List.replicate (2 * (cur - min sld (hl + 1))) ' ' ++
          (if ty = TType.todo then dashSp ++ mdCheck st ++ [' '] else dashSp) ++
          d ++ ['\n']) ++
      toMdList cs hl (cur + 1) sld
      = ((mdEntriesNode (TNode.mk d ty st cs) cur).map (mdBlock (min sld (hl + 1)))).flatten
    rw [toMdList_blocks hl sld cs ih (cur + 1)]
    show _ = (((⟨d, ty, st, cur⟩ : MdEntry) :: mdEntriesList cs (cur + 1)).map
      (mdBlock (min sld (hl + 1)))).flatten
    rw [List.map_cons, List.flatten_cons]
    congr 1
    unfold mdBlock mdRender
    by_cases h : cur < min sld (hl + 1)
    · simp [h, List.append_assoc]
    · simp [h, List.append_assoc]

theorem unlines_append (a b : List Str) : unlines (a ++ b) = unlines a ++ unlines b := by
  induction a with
  | nil => rfl
  | cons l ls ih =>
    show l ++ '\n' :: unlines (ls ++ b) = (l ++ '\n' :: unlines ls) ++ unlines b
    rw [ih]
    simp [List.append_assoc]

theorem mdBlock_unlines (cutoff : Nat) (e : MdEntry) :
    mdBlock cutoff e = unlines (mdLines cutoff e) := by
  unfold mdBlock mdLines
  by_cases h : e.edepth < cutoff
  · simp only [if_pos h]
    show _ = mdRender cutoff e ++ '\n' :: ([] ++ '\n' :: unlines [])
    rfl
  · simp only [if_neg h]
    rfl

theorem flatten_blocks_unlines (cutoff : Nat) (es : List MdEntry) :
    (es.map (mdBlock cutoff)).flatten = unlines ((es.map (mdLines cutoff)).flatten) := by
  induction es with
  | nil => rfl
  | cons e es ih =>
    rw [List.map_cons, List.flatten_cons, List.map_cons, List.flatten_cons,
      unlines_append, mdBlock_unlines, ih]

theorem endsHard_of_strip_self {d : Str} (h : strip d = d) (hne : d ≠ []) :
    endsHard d = true := by
  have hr := rstrip_of_strip_self h
  cases hd : d.reverse with
  | nil =>
    exact absurd (by simpa using congrArg List.reverse hd) hne
  | cons c cr =>
    unfold endsHard
    rw [hd]
    cases hws : isWS c
    · simp [hws]
    · exfalso
      have h1 : rstrip d = (cr.dropWhile isWS).reverse := by
        unfold rstrip
        rw [hd, List.dropWhile_cons, if_pos (by simp [hws])]
      have hlen : (rstrip d).length ≤ cr.length := by
        rw [h1]
        simpa using (List.dropWhile_sublist (l := cr) isWS).length_le
      have hdl : d.length = cr.length + 1 := by
        have h2 : d.reverse.length = cr.length + 1 := by rw [hd]; simp
        simpa using h2
      rw [hr] at hlen
      omega

theorem blank_false_of_endsHard {l : Str} (h : endsHard l = true) : blank l = false := by
  unfold endsHard at h
  cases hl : l.reverse with
  | nil =>
    rw [hl] at h
    exact Bool.noConfusion h
  | cons c cr =>
    rw [hl] at h
    have hc : isWS c = false := by simpa using h
    have hcl : c ∈ l := by
      have h2 : c ∈ l.reverse := by
        rw [hl]
        exact List.mem_cons_self c cr
      exact List.mem_reverse.mp h2
    cases hb : blank l
    · rfl
    · exact absurd (blank_iff_all.mp hb c hcl) (by simp [hc])

theorem mdCheck_ne_nil (st : PStatus) : mdCheck st ≠ [] := by
  cases st <;> decide

theorem newline_not_mem_mdCheck (st : PStatus) : ('\n' : Char) ∉ mdCheck st := by
  cases st <;> decide

theorem mdRender_endsHard (cutoff : Nat) (e : MdEntry)
    (h1 : strip e.edata = e.edata) (h2 : e.edata ≠ []) :
    endsHard (mdRender cutoff e) = true := by
  have hed : endsHard e.edata = true := endsHard_of_strip_self h1 h2
  unfold mdRender
  by_cases h : e.edepth < cutoff
  · simp only [if_pos h]
    rw [endsHard_append (List.replicate e.edepth '#') (by simp)]
    by_cases hty : e.etype = TType.todo
    · simp only [if_pos hty]
      rw [← List.singleton_append,
        endsHard_append [' '] (by simp [mdCheck_ne_nil e.estatus]),
        endsHard_append (mdCheck e.estatus) (by simp),
        ← List.singleton_append, endsHard_append [' '] h2]
      exact hed
    · simp only [if_neg hty]
      rw [← List.singleton_append, endsHard_append [' '] h2]
      exact hed
  · simp only [if_neg h]
    rw [endsHard_append _ h2]
    exact hed

theorem mdRender_newline_free (cutoff : Nat) (e : MdEntry)
    (h3 : ('\n' : Char) ∉ e.edata) : ('\n' : Char) ∉ mdRender cutoff e := by
  unfold mdRender
  by_cases h : e.edepth < cutoff
  · simp only [if_pos h]
    intro hm
    rcases List.mem_append.mp hm with hm | hm
    · exact absurd (List.eq_of_mem_replicate hm) (by decide)
    · rcases List.mem_cons.mp hm with hm | hm
      · exact absurd hm (by decide)
      · by_cases hty : e.etype = TType.todo
        · rw [if_pos hty] at hm
          rcases List.mem_append.mp hm with hm | hm
          · exact newline_not_mem_mdCheck e.estatus hm
          · rcases List.mem_cons.mp hm with hm | hm
            · exact absurd hm (by decide)
            · exact h3 hm
        · rw [if_neg hty] at hm
          exact h3 hm
  · simp only [if_neg h]
    intro hm
    rcases List.mem_append.mp hm with hm | hm
    · rcases List.mem_append.mp hm with hm | hm
      · exact absurd (List.eq_of_mem_replicate hm) (by decide)
      · by_cases hty : e.etype = TType.todo
        · rw [if_pos hty] at hm
          rcases List.mem_append.mp hm with hm | hm
          · rcases List.mem_append.mp hm with hm | hm
            · exact absurd hm (by decide)
            · exact newline_not_mem_mdCheck e.estatus hm
          · exact absurd hm (by decide)
        · rw [if_neg hty] at hm
          exact absurd hm (by decide)
    · exact h3 hm

theorem mdEntriesList_wf_aux (cs : List TNode)
    (ih : ∀ c ∈ cs, tnodeWF c = true → ∀ dep e, e ∈ mdEntriesNode c dep →
      strip e.edata = e.edata ∧ e.edata ≠ [] ∧ ('\n' : Char) ∉ e.edata)
    (hwf : tnodeListWF cs = true) :
    ∀ dep e, e ∈ mdEntriesList cs dep →
      strip e.edata = e.edata ∧ e.edata ≠ [] ∧ ('\n' : Char) ∉ e.edata := by
  induction cs with
  | nil =>
    intro dep e he
    cases he
  | cons c cr ihl =>
    intro dep e he
    have hw : tnodeWF c = true ∧ tnodeListWF cr = true := by
      simpa [tnodeListWF, Bool.and_eq_true] using hwf
    rcases List.mem_append.mp he with he | he
    · exact ih c (List.mem_cons_self c cr) hw.1 dep e he
    · exact ihl (fun x hx => ih x (List.mem_cons_of_mem c hx)) hw.2 dep e he

theorem mdEntriesNode_wf :
    ∀ (t : TNode), tnodeWF t = true → ∀ dep e, e ∈ mdEntriesNode t dep →
      strip e.edata = e.edata ∧ e.edata ≠ [] ∧ ('\n' : Char) ∉ e.edata := by
  intro t
  induction t using tnode_ind with
  | _ d ty st cs ih =>
    intro hwf dep e he
    have hw : (((ty ≠ TType.root ∧ strip d = d) ∧ d ≠ []) ∧ ('\n' : Char) ∉ d) ∧
        tnodeListWF cs = true := by
      simpa [tnodeWF, Bool.and_eq_true, decide_eq_true_eq] using hwf
    rcases List.mem_cons.mp he with rfl | he2
    · exact ⟨hw.1.1.1.2, hw.1.1.2, hw.1.2⟩
    · exact mdEntriesList_wf_aux cs ih hw.2 (dep + 1) e he2

theorem splitNl_cons (c : Char) (rest : Str) :
    splitNl (c :: rest)
      = if c = '\n' then [] :: splitNl rest
        else match splitNl rest with
          | [] => [[c]]
          | l :: ls => (c :: l) :: ls := rfl

theorem splitNl_append_line {l : Str} (r : Str) (hnl : ('\n' : Char) ∉ l) :
    splitNl (l ++ '\n' :: r) = l :: splitNl r := by
  induction l with
  | nil =>
    show splitNl ('\n' :: r) = [] :: splitNl r
    rw [splitNl_cons, if_pos rfl]
  | cons c cl ih =>
    have hc : ¬(c = '\n') := by
      intro hcc
      exact hnl (by rw [← hcc]; exact List.mem_cons_self c cl)
    show splitNl (c :: (cl ++ '\n' :: r)) = (c :: cl) :: splitNl r
    rw [splitNl_cons, if_neg hc, ih (fun hm => hnl (List.mem_cons_of_mem c hm))]

theorem fnl_unlines {ls : List Str} (h : ∀ l ∈ ls, ('\n' : Char) ∉ l) :
    fnl (unlines ls) = ls.filter (fun l => !(blank l)) := by
  induction ls with
  | nil => rfl
  | cons l ls ih =>
    show fnl (l ++ '\n' :: unlines ls) = _
    unfold fnl
    rw [splitNl_append_line _ (h l (List.mem_cons_self l ls)), List.filter_cons]
    have ih2 := ih (fun x hx => h x (List.mem_cons_of_mem l hx))
    unfold fnl at ih2
    rw [ih2, List.filter_cons]

theorem filter_mdLines_flatten (cutoff : Nat) (es : List MdEntry)
    (h : ∀ e ∈ es, blank (mdRender cutoff e) = false) :
    ((es.map (mdLines cutoff)).flatten).filter (fun l => !(blank l))
      = es.map (mdRender cutoff) := by
  induction es with
  | nil => rfl
  | cons e es ih =>
    rw [List.map_cons, List.flatten_cons, List.filter_append,
      ih (fun x hx => h x (List.mem_cons_of_mem e hx)), List.map_cons]
    have hb := h e (List.mem_cons_self e es)
    unfold mdLines
    by_cases hd : e.edepth < cutoff
    · rw [if_pos hd]
      have hbe : blank ([] : Str) = true := by decide
      simp [List.filter_cons, hb, hbe]
    · rw [if_neg hd]
      simp [List.filter_cons, hb]

theorem mdLines_flatten_ok (cutoff : Nat) (es : List MdEntry)
    (hdata : ∀ e ∈ es, strip e.edata = e.edata ∧ e.edata ≠ [] ∧ ('\n' : Char) ∉ e.edata) :
    ∀ l ∈ (es.map (mdLines cutoff)).flatten,
      ('\n' : Char) ∉ l ∧ (blank l = true ∨ endsHard l = true) := by
  induction es with
  | nil =>
    intro l hl
    cases hl
  | cons e es ih =>
    intro l hl
    rw [List.map_cons, List.flatten_cons] at hl
    have hde := hdata e (List.mem_cons_self e es)
    rcases List.mem_append.mp hl with hl | hl
    · have hren : l = mdRender cutoff e ∨ l = [] := by
        unfold mdLines at hl
        by_cases hd : e.edepth < cutoff
        · rw [if_pos hd] at hl
          rcases List.mem_cons.mp hl with h1 | h1
          · exact Or.inl h1
          · rcases List.mem_cons.mp h1 with h2 | h2
            · exact Or.inr h2
            · cases h2
        · rw [if_neg hd] at hl
          rcases List.mem_cons.mp hl with h1 | h1
          · exact Or.inl h1
          · cases h1
      rcases hren with rfl | rfl
      · exact ⟨mdRender_newline_free cutoff e hde.2.2,
          Or.inr (mdRender_endsHard cutoff e hde.1 hde.2.1)⟩
      · exact ⟨by simp, Or.inl rfl⟩
    · exact ih (fun x hx => hdata x (List.mem_cons_of_mem e hx)) l hl

theorem toMdRootLoop_lines (hl sld : Nat) :
    ∀ (cs : List TNode) (acc : List Str),
      (∀ l ∈ acc, ('\n' : Char) ∉ l ∧ (blank l = true ∨ endsHard l = true)) →
      tnodeListWF cs = true →
      ∃ ls, toMdRootLoop cs hl sld (unlines acc) = unlines ls ∧
        (∀ l ∈ ls, ('\n' : Char) ∉ l ∧ (blank l = true ∨ endsHard l = true)) ∧
        ls.filter (fun l => !(blank l))
          = acc.filter (fun l => !(blank l))
            ++ (mdEntriesList cs 1).map (mdRender (min sld (hl + 1))) := by
  intro cs
  induction cs with
  | nil =>
    intro acc hacc _
    refine ⟨acc, rfl, hacc, ?_⟩
    rw [show mdEntriesList [] 1 = [] from rfl]
    simp
  | cons c cr ihl =>
    intro acc hacc hwf
    have hw : tnodeWF c = true ∧ tnodeListWF cr = true := by
      simpa [tnodeListWF, Bool.and_eq_true] using hwf
    have hdata := mdEntriesNode_wf c hw.1 1
    have hblocks : toMdNode c hl 1 sld
        = unlines (((mdEntriesNode c 1).map (mdLines (min sld (hl + 1)))).flatten) := by
      rw [toMdNode_blocks hl sld c 1, flatten_blocks_unlines]
    have hbls : ∀ l ∈ ((mdEntriesNode c 1).map (mdLines (min sld (hl + 1)))).flatten,
        ('\n' : Char) ∉ l ∧ (blank l = true ∨ endsHard l = true) :=
      mdLines_flatten_ok (min sld (hl + 1)) (mdEntriesNode c 1) hdata
    have hrenb : ∀ e ∈ mdEntriesNode c 1, blank (mdRender (min sld (hl + 1)) e) = false :=
      fun e he => blank_false_of_endsHard
        (mdRender_endsHard (min sld (hl + 1)) e (hdata e he).1 (hdata e he).2.1)
    have hfb : (((mdEntriesNode c 1).map (mdLines (min sld (hl + 1)))).flatten).filter
        (fun l => !(blank l)) = (mdEntriesNode c 1).map (mdRender (min sld (hl + 1))) :=
      filter_mdLines_flatten (min sld (hl + 1)) (mdEntriesNode c 1) hrenb
    have hm1 : mdEntriesList (c :: cr) 1 = mdEntriesNode c 1 ++ mdEntriesList cr 1 := rfl
    by_cases hcond : unlines acc ++ toMdNode c hl 1 sld ≠ [] ∧
        ¬(['\n', '\n'] : Str).isSuffixOf (unlines acc ++ toMdNode c hl 1 sld)
    · obtain ⟨ls, h1, h2, h3⟩ := ihl
        (acc ++ ((mdEntriesNode c 1).map (mdLines (min sld (hl + 1)))).flatten ++ [[]])
        (by
          intro l hlm
          rcases List.mem_append.mp hlm with hlm | hlm
          · rcases List.mem_append.mp hlm with hlm | hlm
            · exact hacc l hlm
            · exact hbls l hlm
          · rcases List.mem_cons.mp hlm with rfl | hlm
            · exact ⟨by simp, Or.inl rfl⟩
            · cases hlm)
        hw.2
      refine ⟨ls, ?_, h2, ?_⟩
      · show toMdRootLoop cr hl sld
          (if unlines acc ++ toMdNode c hl 1 sld ≠ [] ∧
              ¬(['\n', '\n'] : Str).isSuffixOf (unlines acc ++ toMdNode c hl 1 sld) then
            (unlines acc ++ toMdNode c hl 1 sld) ++ ['\n']
          else unlines acc ++ toMdNode c hl 1 sld) = unlines ls
        rw [if_pos hcond]
        have e1 : (unlines acc ++ toMdNode c hl 1 sld) ++ ['\n']
            = unlines (acc ++ ((mdEntriesNode c 1).map
                (mdLines (min sld (hl + 1)))).flatten ++ [[]]) := by
          rw [hblocks, ← unlines_append, unlines_append _ [[]]]
          rfl
        rw [e1]
        exact h1
      · rw [h3, hm1, List.map_append, List.filter_append, List.filter_append, hfb]
        rw [show List.filter (fun l => !(blank l)) [[]] = [] from by decide]
        simp [List.append_assoc]
    · obtain ⟨ls, h1, h2, h3⟩ := ihl
        (acc ++ ((mdEntriesNode c 1).map (mdLines (min sld (hl + 1)))).flatten)
        (by
          intro l hlm
          rcases List.mem_append.mp hlm with hlm | hlm
          · exact hacc l hlm
          · exact hbls l hlm)
        hw.2
      refine ⟨ls, ?_, h2, ?_⟩
      · show toMdRootLoop cr hl sld
          (if unlines acc ++ toMdNode c hl 1 sld ≠ [] ∧
              ¬(['\n', '\n'] : Str).isSuffixOf (unlines acc ++ toMdNode c hl 1 sld) then
            (unlines acc ++ toMdNode c hl 1 sld) ++ ['\n']
          else unlines acc ++ toMdNode c hl 1 sld) = unlines ls
        rw [if_neg hcond]
        have e1 : unlines acc ++ toMdNode c hl 1 sld
            = unlines (acc ++ ((mdEntriesNode c 1).map
                (mdLines (min sld (hl + 1)))).flatten) := by
          rw [hblocks, ← unlines_append]
        rw [e1]
        exact h1
      · rw [h3, hm1, List.map_append, List.filter_append, hfb]
        simp [List.append_assoc]

theorem endsHard_ne_nil {l : Str} (h : endsHard l = true) : l ≠ [] := by
  intro he
  rw [he] at h
  exact Bool.noConfusion h

theorem fnl_rstrip_unlines :
    ∀ ls : List Str, (∀ l ∈ ls, ('\n' : Char) ∉ l ∧ (blank l = true ∨ endsHard l = true)) →
      fnl (rstrip (unlines ls) ++ ['\n']) = ls.filter (fun l => !(blank l)) := by
  intro ls
  induction ls using List.reverseRecOn with
  | nil =>
    intro _
    rfl
  | append_singleton ls l ih =>
    intro h
    have hl := h l (List.mem_append_right ls (List.mem_singleton.mpr rfl))
    have hls : ∀ x ∈ ls, ('\n' : Char) ∉ x ∧ (blank x = true ∨ endsHard x = true) :=
      fun x hx => h x (List.mem_append_left [l] hx)
    have hsing : unlines [l] = l ++ ['\n'] := rfl
    rcases hl.2 with hb | hh
    · rw [unlines_append, hsing, rstrip_append_blank _ (by
        rw [blank_append, hb]
        decide)]
      rw [ih hls, List.filter_append]
      have hfl : ([l].filter (fun x => !(blank x))) = [] := by
        simp [List.filter_cons, hb]
      rw [hfl, List.append_nil]
    · have h1 : rstrip (unlines ls ++ (l ++ ['\n'])) = unlines ls ++ l := by
        rw [← List.append_assoc, rstrip_append_blank _ (by decide)]
        apply endsHard_rstrip_self
        rw [endsHard_append _ (endsHard_ne_nil hh)]
        exact hh
      rw [unlines_append, hsing, h1, List.append_assoc, ← hsing, ← unlines_append]
      rw [fnl_unlines (fun x hx => (h x hx).1)]

/-- C2: Markdown export with cutoff `min(shallowestLeafDepth(root),
maxHeaderLevels + 1)` renders each node of a well-formed tree, in depth-first
order, as an ATX header of level equal to its depth when the depth is below the
cutoff and as a dash bullet indented `2 * (depth - cutoff)` spaces with the
TODO status as a bracket checkbox otherwise: the non-blank lines of
`to_md(header_levels)` on the root are exactly `mdRender cutoff` of the
depth-first entries, each non-root node's output is its rendered line followed
by a blank line (header) or a single newline (bullet), and on the four-node
example tree with `header_levels = 4` the cutoff is 3 and the output is
exactly a level-1 header `Project`, a level-2 header `Phase1`, and bullets
`- [ ] Task A` and `- [x] Task B`. -/
theorem c2_markdown_export :
    (∀ (t : TNode) (hl : Nat), mdTreeWF t = true →
        fnl (toMdRoot t hl)
          = (mdEntries t).map (mdRender (min (sldOf t 0) (hl + 1)))
        ∧ toMdList t.children hl 1 (sldOf t 0)
          = ((mdEntries t).map (mdBlock (min (sldOf t 0) (hl + 1)))).flatten)
    ∧ min (sldOf exTree 0) (4 + 1) = 3
    ∧ toMdRoot exTree 4 = exMd := by
  refine ⟨?_, by decide, by decide⟩
  intro t hl hwf
  have hcwf : tnodeListWF t.children = true := by
    have := hwf
    unfold mdTreeWF at this
    exact (Bool.and_eq_true _ _ |>.mp this).2
  constructor
  · obtain ⟨ls, h1, h2, h3⟩ :=
      toMdRootLoop_lines hl (sldOf t 0) t.children []
        (fun l hl0 => absurd hl0 (List.not_mem_nil l)) hcwf
    have h1' : toMdRootLoop t.children hl (sldOf t 0) [] = unlines ls := h1
    show fnl (rstrip (toMdRootLoop t.children hl (sldOf t 0) []) ++ ['\n'])
      = (mdEntries t).map (mdRender (min (sldOf t 0) (hl + 1)))
    rw [h1', fnl_rstrip_unlines ls h2, h3]
    rfl
  · exact toMdList_blocks hl (sldOf t 0) t.children
      (fun c _ cur => toMdNode_blocks hl (sldOf t 0) c cur) 1

/-- Witness for C2: the general rendering law applied to the example tree with
`header_levels = 4`, whose well-formedness is checked by evaluation. -/
theorem c2_markdown_export_witness :
    fnl (toMdRoot exTree 4)
      = (mdEntries exTree).map (mdRender (min (sldOf exTree 0) (4 + 1))) :=
  (c2_markdown_export.1 exTree 4 (by decide)).1

/-! ## C1: the parse/serialize round-trip -/

theorem dfsList_append (a b : List Node) (d : Nat) :
    dfsList (a ++ b) d = dfsList a d ++ dfsList b d := by
  induction a with
  | nil => rfl
  | cons c cs ih =>
    simp only [List.cons_append, dfsList, List.append_eq, List.append_assoc]
    rw [ih]

theorem pathDfs_merge (bs : List Frame) (i : Info) (ks : List Node) (fi : Info)
    (fk : List Node) :
    ∀ d, pathDfs (bs ++ [(i, ks), (fi, fk)]) d
      = pathDfs (bs ++ [(i, ks ++ [Node.mk fi false fk])]) d := by
  induction bs with
  | nil =>
    intro d
    cases hfi : fi.ntype <;>
      simp [pathDfs, dfsList, dfsNode, dfsList_append, hfi, List.append_assoc]
  | cons g bs ih =>
    intro d
    obtain ⟨gi, gk⟩ := g
    simp only [List.cons_append, pathDfs, List.append_eq]
    rw [ih]

theorem popTo_nil (n : Nat) : popTo n ([] : Stack) = [] := by
  rw [popTo]
  intro i ks i2 ks2 rest h
  simp at h

theorem popTo_single (n : Nat) (f : Frame) : popTo n [f] = [f] := by
  rw [popTo]
  intro i ks i2 ks2 rest h
  simp at h

theorem popTo_cons_cons (n : Nat) (i : Info) (ks : List Node) (j : Info)
    (js : List Node) (rest : Stack) :
    popTo n ((i, ks) :: (j, js) :: rest)
      = if n < ((i, ks) :: (j, js) :: rest).length then
          popTo n ((j, js ++ [Node.mk i false ks]) :: rest)
        else (i, ks) :: (j, js) :: rest := by
  rw [popTo]

theorem popTo_reverse_pathDfs (d : Nat) :
    ∀ (k : Nat) (s : Stack), s.length ≤ k → ∀ n,
      pathDfs ((popTo n s).reverse) d = pathDfs s.reverse d := by
  intro k
  induction k with
  | zero =>
    intro s hs n
    have h0 : s = [] := List.length_eq_zero.mp (Nat.le_zero.mp hs)
    subst h0
    rw [popTo_nil]
  | succ k ih =>
    intro s hs n
    match s with
    | [] => rw [popTo_nil]
    | [f] => rw [popTo_single]
    | (i, ks) :: (j, js) :: rest =>
      rw [popTo_cons_cons]
      by_cases hn : n < ((i, ks) :: (j, js) :: rest).length
      · rw [if_pos hn]
        have h1 : (((j, js ++ [Node.mk i false ks]) :: rest) : Stack).length ≤ k := by
          simp only [List.length_cons] at hs ⊢
          omega
        rw [ih _ h1 n]
        rw [List.reverse_cons, List.reverse_cons, List.reverse_cons,
          List.append_assoc]
        exact (pathDfs_merge rest.reverse j js i ks d).symm
      · rw [if_neg hn]

theorem popTo_length :
    ∀ (k : Nat) (s : Stack), s.length ≤ k → ∀ n, 1 ≤ n →
      (popTo n s).length = min s.length n := by
  intro k
  induction k with
  | zero =>
    intro s hs n hn
    have h0 : s = [] := List.length_eq_zero.mp (Nat.le_zero.mp hs)
    subst h0
    rw [popTo_nil]
    simp
  | succ k ih =>
    intro s hs n hn
    match s with
    | [] =>
      rw [popTo_nil]
      simp
    | [f] =>
      rw [popTo_single]
      simp only [List.length_cons, List.length_nil]
      omega
    | (i, ks) :: (j, js) :: rest =>
      rw [popTo_cons_cons]
      by_cases h : n < ((i, ks) :: (j, js) :: rest).length
      · rw [if_pos h]
        have h1 : (((j, js ++ [Node.mk i false ks]) :: rest) : Stack).length ≤ k := by
          simp only [List.length_cons] at hs ⊢
          omega
        rw [ih _ h1 n hn]
        simp only [List.length_cons] at h ⊢
        omega
      · rw [if_neg h]
        simp only [List.length_cons] at h ⊢
        omega

theorem pathDfs_push (i : Info) (hi : i.ntype ≠ NType.root) :
    ∀ (bs : List Frame) (d : Nat),
      pathDfs (bs ++ [(i, [])]) d = pathDfs bs d ++ [(i, d + bs.length)] := by
  intro bs
  induction bs with
  | nil =>
    intro d
    cases hnt : i.ntype with
    | root => exact absurd hnt hi
    | item => simp [pathDfs, dfsList, hnt]
    | todo => simp [pathDfs, dfsList, hnt]
  | cons g bs ih =>
    intro d
    obtain ⟨gi, gk⟩ := g
    have hn : d + 1 + bs.length = d + (bs.length + 1) := by omega
    simp only [List.cons_append, pathDfs, List.append_eq, List.length_cons]
    rw [ih, hn]
    simp [List.append_assoc]

theorem mkInfo_ntype (raw : Str) : (mkInfo raw).ntype ≠ NType.root := by
  unfold mkInfo
  split
  · simp
  · split
    · simp
    · split
      · simp
      · split
        · simp
        · simp

theorem lineItem_ntype {line : Str} {i : Info} {lvl : Nat}
    (h : lineItem line = some (i, lvl)) : i.ntype ≠ NType.root := by
  simp only [lineItem] at h
  by_cases hb : blank line
  · rw [if_pos hb] at h
    cases h
  · rw [if_neg hb] at h
    simp only [Option.some.injEq, Prod.mk.injEq] at h
    rw [← h.1]
    exact mkInfo_ntype _

theorem stepLine_none {s : Stack} {line : Str} (h : lineItem line = none) :
    stepLine s line = s := by
  simp [stepLine, h]

theorem stepLine_some {s : Stack} {line : Str} {i : Info} {lvl : Nat}
    (h : lineItem line = some (i, lvl)) :
    stepLine s line = (i, []) :: popTo (lvl + 1) s := by
  simp [stepLine, h]

theorem foldl_stepLine_pathDfs :
    ∀ (lines : List Str) (s : Stack), 1 ≤ s.length →
      pathDfs ((lines.foldl stepLine s).reverse) 0
        = pathDfs s.reverse 0
          ++ depthSeq (s.length - 1) (lines.filterMap lineItem) := by
  intro lines
  induction lines with
  | nil =>
    intro s hs
    simp [depthSeq]
  | cons line rest ih =>
    intro s hs
    rw [List.foldl_cons]
    cases hli : lineItem line with
    | none =>
      rw [stepLine_none hli]
      rw [ih s hs]
      simp [List.filterMap_cons, hli]
    | some p =>
      obtain ⟨i, lvl⟩ := p
      rw [stepLine_some hli]
      have hlen : 1 ≤ ((i, ([] : List Node)) :: popTo (lvl + 1) s).length := by
        simp
      rw [ih _ hlen]
      have hplen : (popTo (lvl + 1) s).length = min s.length (lvl + 1) :=
        popTo_length s.length s le_rfl (lvl + 1) (by omega)
      have hrev : pathDfs (((i, ([] : List Node)) :: popTo (lvl + 1) s).reverse) 0
          = pathDfs s.reverse 0 ++ [(i, min s.length (lvl + 1))] := by
        rw [List.reverse_cons, pathDfs_push i (lineItem_ntype hli),
          popTo_reverse_pathDfs 0 s.length s le_rfl (lvl + 1),
          List.length_reverse, hplen, Nat.zero_add]
      rw [hrev]
      have hlen2 : ((i, ([] : List Node)) :: popTo (lvl + 1) s).length - 1
          = min s.length (lvl + 1) := by
        simp [hplen]
      rw [hlen2]
      have hs1 : s.length - 1 + 1 = s.length := by omega
      simp only [List.filterMap_cons, hli, depthSeq, hs1, List.append_assoc,
        List.singleton_append]

theorem popTo_one :
    ∀ (rest : Stack) (f : Frame), popTo 1 (f :: rest) = [collapseF f rest] := by
  intro rest
  induction rest with
  | nil =>
    intro f
    rw [popTo_single]
    rfl
  | cons g r ih =>
    intro f
    obtain ⟨i, ks⟩ := f
    obtain ⟨j, js⟩ := g
    rw [popTo_cons_cons]
    rw [if_pos (by simp only [List.length_cons]; omega)]
    rw [ih]
    rfl

theorem stackRoot_collapse (f : Frame) (rest : Stack) :
    stackRoot (f :: rest)
      = Node.mk (collapseF f rest).1 false (collapseF f rest).2 := by
  rcases hcf : collapseF f rest with ⟨ci, cks⟩
  simp [stackRoot, popTo_one, hcf]

theorem collapse_pathDfs :
    ∀ (rest : Stack) (f : Frame) (d : Nat),
      dfsNode (Node.mk (collapseF f rest).1 false (collapseF f rest).2) d
        = pathDfs (rest.reverse ++ [f]) d := by
  intro rest
  induction rest with
  | nil =>
    intro f d
    obtain ⟨i, ks⟩ := f
    show dfsNode (Node.mk i false ks) d = pathDfs [(i, ks)] d
    cases hnt : i.ntype <;> simp [dfsNode, pathDfs, hnt]
  | cons g r ih =>
    intro f d
    obtain ⟨i, ks⟩ := f
    obtain ⟨j, js⟩ := g
    show dfsNode (Node.mk (collapseF (j, js ++ [Node.mk i false ks]) r).1 false
        (collapseF (j, js ++ [Node.mk i false ks]) r).2) d
      = pathDfs (((j, js) :: r).reverse ++ [(i, ks)]) d
    rw [ih]
    rw [List.reverse_cons, List.append_assoc]
    exact (pathDfs_merge r.reverse j js i ks d).symm

theorem foldl_stepLine_length :
    ∀ (lines : List Str) (s : Stack), 1 ≤ s.length →
      1 ≤ (lines.foldl stepLine s).length := by
  intro lines
  induction lines with
  | nil =>
    intro s hs
    exact hs
  | cons line rest ih =>
    intro s hs
    rw [List.foldl_cons]
    cases hli : lineItem line with
    | none =>
      rw [stepLine_none hli]
      exact ih s hs
    | some p =>
      obtain ⟨i, lvl⟩ := p
      rw [stepLine_some hli]
      exact ih _ (by simp)

theorem dfsSeq_parseLines (lines : List Str) :
    dfsSeq (parseLines lines) = depthSeq 0 (lines.filterMap lineItem) := by
  have hlen : 1 ≤ (lines.foldl stepLine [(rootInfo, [])]).length :=
    foldl_stepLine_length lines [(rootInfo, [])] (by simp)
  have hinv := foldl_stepLine_pathDfs lines [(rootInfo, [])] (by simp)
  cases hS : lines.foldl stepLine [(rootInfo, [])] with
  | nil =>
    rw [hS] at hlen
    simp at hlen
  | cons f rest =>
    unfold dfsSeq parseLines
    rw [hS, stackRoot_collapse, collapse_pathDfs, ← List.reverse_cons, ← hS,
      hinv]
    simp [pathDfs, dfsList, rootInfo]

theorem mem_of_mem_lstrip {c : Char} {l : Str} (h : c ∈ lstrip l) : c ∈ l :=
  (List.dropWhile_sublist _).subset h

theorem mem_of_mem_rstrip {c : Char} {l : Str} (h : c ∈ rstrip l) : c ∈ l := by
  unfold rstrip at h
  rw [List.mem_reverse] at h
  have h2 := (List.dropWhile_sublist _).subset h
  rwa [List.mem_reverse] at h2

theorem mem_of_mem_strip {c : Char} {l : Str} (h : c ∈ strip l) : c ∈ l :=
  mem_of_mem_lstrip (mem_of_mem_rstrip h)

theorem mkInfo_wf (raw : Str) (h : ('\n' : Char) ∉ raw) :
    infoWF (mkInfo raw) = true := by
  have hnl : ∀ k : Nat, ('\n' : Char) ∉ strip ((strip raw).drop k) := by
    intro k hm
    exact h (mem_of_mem_strip (List.drop_subset _ _ (mem_of_mem_strip hm)))
  unfold mkInfo
  by_cases h1 : mkPend.isPrefixOf (strip raw)
  · rw [if_pos h1]
    simp [infoWF, strip_idem, hnl 2]
  · rw [if_neg h1]
    by_cases h2 : mkDone.isPrefixOf (strip raw)
    · rw [if_pos h2]
      simp [infoWF, strip_idem, hnl 3]
    · rw [if_neg h2]
      by_cases h3 : mkProg.isPrefixOf (strip raw)
      · rw [if_pos h3]
        simp [infoWF, strip_idem, hnl 3]
      · rw [if_neg h3]
        by_cases h4 : mkUnk.isPrefixOf (strip raw)
        · rw [if_pos h4]
          simp [infoWF, strip_idem, hnl 3]
        · rw [if_neg h4]
          have h0 : ('\n' : Char) ∉ strip raw := fun hm => h (mem_of_mem_strip hm)
          simp [infoWF, strip_idem, h0, h1, h2, h3, h4]

theorem nodeListWF_append (a b : List Node) :
    nodeListWF (a ++ b) = (nodeListWF a && nodeListWF b) := by
  induction a with
  | nil => simp [nodeListWF]
  | cons c cs ih => simp [nodeListWF, ih, Bool.and_assoc]

theorem stackOK_cons_cons (i : Info) (ks : List Node) (g : Frame)
    (rest : Stack) :
    stackOK ((i, ks) :: g :: rest)
      = (infoWF i && nodeListWF ks && stackOK (g :: rest)) := rfl

theorem stackOK_single (i : Info) (ks : List Node) :
    stackOK [(i, ks)] = (decide (i.ntype = NType.root) && nodeListWF ks) := rfl

theorem popStep_OK {i : Info} {ks : List Node} {j : Info} {js : List Node}
    {rest : Stack} (h : stackOK ((i, ks) :: (j, js) :: rest) = true) :
    stackOK ((j, js ++ [Node.mk i false ks]) :: rest) = true := by
  rw [stackOK_cons_cons] at h
  simp only [Bool.and_eq_true] at h
  obtain ⟨⟨hi, hks⟩, hrest⟩ := h
  have hn : nodeWF (Node.mk i false ks) = true := by
    simp [nodeWF, hi, hks]
  cases rest with
  | nil =>
    rw [stackOK_single] at hrest ⊢
    simp only [Bool.and_eq_true] at hrest ⊢
    exact ⟨hrest.1, by simp [nodeListWF_append, hrest.2, nodeListWF, hn]⟩
  | cons g2 r2 =>
    rw [stackOK_cons_cons] at hrest ⊢
    simp only [Bool.and_eq_true] at hrest ⊢
    exact ⟨⟨hrest.1.1, by simp [nodeListWF_append, hrest.1.2, nodeListWF, hn]⟩,
      hrest.2⟩

theorem popTo_stackOK :
    ∀ (k : Nat) (s : Stack), s.length ≤ k → stackOK s = true →
      ∀ n, stackOK (popTo n s) = true := by
  intro k
  induction k with
  | zero =>
    intro s hs hok n
    have h0 : s = [] := List.length_eq_zero.mp (Nat.le_zero.mp hs)
    subst h0
    rw [popTo_nil]
    exact hok
  | succ k ih =>
    intro s hs hok n
    match s with
    | [] =>
      rw [popTo_nil]
      exact hok
    | [f] =>
      rw [popTo_single]
      exact hok
    | (i, ks) :: (j, js) :: rest =>
      rw [popTo_cons_cons]
      by_cases h : n < ((i, ks) :: (j, js) :: rest).length
      · rw [if_pos h]
        exact ih _ (by simp only [List.length_cons] at hs ⊢; omega)
          (popStep_OK hok) n
      · rw [if_neg h]
        exact hok

theorem lineItem_infoWF {line : Str} {i : Info} {lvl : Nat}
    (hnl : ('\n' : Char) ∉ line) (h : lineItem line = some (i, lvl)) :
    infoWF i = true := by
  simp only [lineItem] at h
  by_cases hb : blank line
  · rw [if_pos hb] at h
    cases h
  · rw [if_neg hb] at h
    simp only [Option.some.injEq, Prod.mk.injEq] at h
    rw [← h.1]
    apply mkInfo_wf
    intro hm
    apply hnl
    by_cases hd : dashSp.isPrefixOf (lstrip line)
    · rw [if_pos hd] at hm
      exact mem_of_mem_lstrip (List.drop_subset _ _ hm)
    · rw [if_neg hd] at hm
      exact mem_of_mem_lstrip hm

theorem stepLine_stackOK {s : Stack} {line : Str}
    (hnl : ('\n' : Char) ∉ line) (hok : stackOK s = true) :
    stackOK (stepLine s line) = true := by
  cases hli : lineItem line with
  | none =>
    rw [stepLine_none hli]
    exact hok
  | some p =>
    obtain ⟨i, lvl⟩ := p
    rw [stepLine_some hli]
    have hp : stackOK (popTo (lvl + 1) s) = true :=
      popTo_stackOK s.length s le_rfl hok (lvl + 1)
    cases hp2 : popTo (lvl + 1) s with
    | nil =>
      rw [hp2] at hp
      simp [stackOK] at hp
    | cons g r =>
      rw [hp2] at hp
      rw [stackOK_cons_cons]
      simp only [Bool.and_eq_true]
      exact ⟨⟨lineItem_infoWF hnl hli, rfl⟩, hp⟩

theorem foldl_stepLine_stackOK :
    ∀ (lines : List Str), (∀ l ∈ lines, ('\n' : Char) ∉ l) →
      ∀ (s : Stack), stackOK s = true →
        stackOK (lines.foldl stepLine s) = true := by
  intro lines
  induction lines with
  | nil =>
    intro _ s hok
    exact hok
  | cons line rest ih =>
    intro hnl s hok
    rw [List.foldl_cons]
    exact ih (fun l hl => hnl l (List.mem_cons_of_mem _ hl)) _
      (stepLine_stackOK (hnl line (List.mem_cons_self _ _)) hok)

theorem collapseF_OK :
    ∀ (rest : Stack) (f : Frame), stackOK (f :: rest) = true →
      (decide ((collapseF f rest).1.ntype = NType.root)
        && nodeListWF (collapseF f rest).2) = true := by
  intro rest
  induction rest with
  | nil =>
    intro f h
    obtain ⟨i, ks⟩ := f
    rw [stackOK_single] at h
    exact h
  | cons g r ih =>
    intro f h
    obtain ⟨i, ks⟩ := f
    obtain ⟨j, js⟩ := g
    show (decide ((collapseF (j, js ++ [Node.mk i false ks]) r).1.ntype
          = NType.root)
        && nodeListWF (collapseF (j, js ++ [Node.mk i false ks]) r).2) = true
    exact ih _ (popStep_OK h)

theorem parseLines_treeWF (lines : List Str)
    (hnl : ∀ l ∈ lines, ('\n' : Char) ∉ l) :
    treeWF (parseLines lines) = true := by
  have hok : stackOK (lines.foldl stepLine [(rootInfo, [])]) = true :=
    foldl_stepLine_stackOK lines hnl [(rootInfo, [])] (by decide)
  cases hS : lines.foldl stepLine [(rootInfo, [])] with
  | nil =>
    rw [hS] at hok
    simp [stackOK] at hok
  | cons f rest =>
    rw [hS] at hok
    unfold parseLines
    rw [hS, stackRoot_collapse]
    have h2 := collapseF_OK rest f hok
    simp only [Bool.and_eq_true] at h2
    simp [treeWF, Node.info, Node.folded, Node.children, h2.1, h2.2]

theorem splitNl_mem_no_nl : ∀ (s : Str), ∀ l ∈ splitNl s, ('\n' : Char) ∉ l := by
  intro s
  induction s with
  | nil =>
    intro l hl
    have h0 : l = [] := by simpa [splitNl] using hl
    subst h0
    simp
  | cons c r ih =>
    intro l hl
    rw [splitNl_cons] at hl
    by_cases hc : c = '\n'
    · rw [if_pos hc] at hl
      rcases List.mem_cons.mp hl with rfl | hl
      · simp
      · exact ih l hl
    · rw [if_neg hc] at hl
      cases hsr : splitNl r with
      | nil =>
        rw [hsr] at hl
        have hl2 : l ∈ [[c]] := hl
        have h0 : l = [c] := by simpa using hl2
        subst h0
        simp only [List.mem_singleton]
        exact fun he => hc he.symm
      | cons hd tl =>
        rw [hsr] at hl
        have hl2 : l ∈ (c :: hd) :: tl := hl
        rcases List.mem_cons.mp hl2 with rfl | hl3
        · intro hm
          rcases List.mem_cons.mp hm with he | hm2
          · exact hc he.symm
          · exact ih hd (hsr ▸ List.mem_cons_self _ _) hm2
        · exact ih l (hsr ▸ List.mem_cons_of_mem _ hl3)

theorem loadFromText_treeWF (text : Str) : treeWF (loadFromText text) = true := by
  unfold loadFromText
  by_cases hb : blank text
  · rw [if_pos hb]
    decide
  · rw [if_neg hb]
    exact parseLines_treeWF _ (splitNl_mem_no_nl text)

theorem blank_replicate_space (n : Nat) :
    blank (List.replicate n ' ') = true := by
  rw [blank_iff_all]
  intro c hc
  rw [List.eq_of_mem_replicate hc]
  decide

theorem statusMarker_blank (o : Option TStatus) :
    blank (statusMarker o) = false := by
  cases o with
  | none => decide
  | some st => cases st <;> decide

theorem blank_dashSp : blank dashSp = false := by decide

theorem blank_mkLine (i : Info) (lvl : Nat) : blank (mkLine i lvl) = false := by
  simp only [mkLine]
  cases hnt : i.ntype with
  | todo => simp [blank_append, statusMarker_blank]
  | root => simp [blank_append, blank_dashSp]
  | item => simp [blank_append, blank_dashSp]

theorem newline_not_mem_statusMarker (o : Option TStatus) :
    ('\n' : Char) ∉ statusMarker o := by
  cases o with
  | none => decide
  | some st => cases st <;> decide

theorem mkLine_no_nl (i : Info) (lvl : Nat) (h : ('\n' : Char) ∉ i.content) :
    ('\n' : Char) ∉ mkLine i lvl := by
  simp only [mkLine]
  cases hnt : i.ntype with
  | todo =>
    intro hm
    rcases List.mem_append.mp hm with hm | hm
    · rcases List.mem_append.mp hm with hm | hm
      · exact absurd (List.eq_of_mem_replicate hm) (by decide)
      · exact newline_not_mem_statusMarker _ hm
    · rcases List.mem_cons.mp hm with he | hm2
      · exact absurd he (by decide)
      · exact h hm2
  | root =>
    intro hm
    rcases List.mem_append.mp hm with hm | hm
    · rcases List.mem_append.mp hm with hm | hm
      · exact absurd (List.eq_of_mem_replicate hm) (by decide)
      · exact absurd hm (by decide)
    · exact h hm
  | item =>
    intro hm
    rcases List.mem_append.mp hm with hm | hm
    · rcases List.mem_append.mp hm with hm | hm
      · exact absurd (List.eq_of_mem_replicate hm) (by decide)
      · exact absurd hm (by decide)
    · exact h hm

theorem indentWidth_replicate (n : Nat) (r : Str) :
    indentWidth (List.replicate n ' ' ++ r) = n + indentWidth r := by
  induction n with
  | zero => simp
  | succ n ih =>
    rw [List.replicate_succ, List.cons_append]
    simp only [indentWidth, if_true]
    rw [ih]
    omega

theorem lineItem_shift (lvl : Nat) (c : Char) (r : Str) (hw : isWS c = false)
    (hcs : c ≠ ' ') (hct : c ≠ '\t') :
    lineItem (List.replicate (4 * lvl) ' ' ++ c :: r)
      = some (mkInfo (if dashSp.isPrefixOf (c :: r) then (c :: r).drop 2
          else c :: r), lvl) := by
  have hb : blank (List.replicate (4 * lvl) ' ' ++ c :: r) = false := by
    rw [blank_append, blank_replicate_space]
    simp [blank, hw]
  have hls : lstrip (List.replicate (4 * lvl) ' ' ++ c :: r) = c :: r := by
    rw [lstrip_append_blank _ (blank_replicate_space _), lstrip_cons_not hw]
  have hiw : indentWidth (List.replicate (4 * lvl) ' ' ++ c :: r) = 4 * lvl := by
    rw [indentWidth_replicate]
    simp only [indentWidth]
    rw [if_neg hcs, if_neg hct]
    omega
  have h4 : 4 * lvl / 4 = lvl := Nat.mul_div_cancel_left lvl (by norm_num)
  simp [lineItem, hb, hls, hiw, h4]

theorem strip_space_cons (content : Str) :
    strip (' ' :: content) = strip content := by
  unfold strip
  rw [lstrip_cons_ws (by decide)]

theorem mkInfo_pend_append (s : Str) :
    mkInfo (mkPend ++ s) = ⟨strip s, NType.todo, some TStatus.pending⟩ := by
  have epend : strip (mkPend ++ s) = mkPend ++ rstrip s :=
    strip_marker_append s rfl (by decide) (by decide)
  unfold mkInfo
  rw [epend]
  rw [if_pos (List.isPrefixOf_iff_prefix.mpr (List.prefix_append _ _))]
  rw [drop_marker (m := mkPend) (rstrip s) 2 rfl, strip_rstrip]

theorem mkInfo_done_append (s : Str) :
    mkInfo (mkDone ++ s) = ⟨strip s, NType.todo, some TStatus.complete⟩ := by
  have edone : strip (mkDone ++ s) = mkDone ++ rstrip s :=
    strip_marker_append s rfl (by decide) (by decide)
  unfold mkInfo
  rw [edone]
  rw [show mkDone ++ rstrip s = '[' :: 'x' :: (']' :: rstrip s) from rfl,
    show mkPend = '[' :: [']'] from rfl, isPrefixOf_cons_same,
    isPrefixOf_cons_ne (by decide), if_neg (by simp)]
  rw [show ('[' : Char) :: 'x' :: (']' :: rstrip s) = mkDone ++ rstrip s from rfl]
  rw [if_pos (List.isPrefixOf_iff_prefix.mpr (List.prefix_append _ _))]
  rw [drop_marker (m := mkDone) (rstrip s) 3 rfl, strip_rstrip]

theorem mkInfo_prog_append (s : Str) :
    mkInfo (mkProg ++ s) = ⟨strip s, NType.todo, some TStatus.progress⟩ := by
  have eprog : strip (mkProg ++ s) = mkProg ++ rstrip s :=
    strip_marker_append s rfl (by decide) (by decide)
  unfold mkInfo
  rw [eprog]
  rw [show mkProg ++ rstrip s = '[' :: '-' :: (']' :: rstrip s) from rfl,
    show mkPend = '[' :: [']'] from rfl, isPrefixOf_cons_same,
    isPrefixOf_cons_ne (by decide), if_neg (by simp)]
  rw [show mkDone = '[' :: 'x' :: [']'] from rfl, isPrefixOf_cons_same,
    isPrefixOf_cons_ne (by decide), if_neg (by simp)]
  rw [show ('[' : Char) :: '-' :: (']' :: rstrip s) = mkProg ++ rstrip s from rfl]
  rw [if_pos (List.isPrefixOf_iff_prefix.mpr (List.prefix_append _ _))]
  rw [drop_marker (m := mkProg) (rstrip s) 3 rfl, strip_rstrip]

theorem mkInfo_unk_append (s : Str) :
    mkInfo (mkUnk ++ s) = ⟨strip s, NType.todo, some TStatus.unknown⟩ := by
  have eunk : strip (mkUnk ++ s) = mkUnk ++ rstrip s :=
    strip_marker_append s rfl (by decide) (by decide)
  unfold mkInfo
  rw [eunk]
  rw [show mkUnk ++ rstrip s = '[' :: '?' :: (']' :: rstrip s) from rfl,
    show mkPend = '[' :: [']'] from rfl, isPrefixOf_cons_same,
    isPrefixOf_cons_ne (by decide), if_neg (by simp)]
  rw [show mkDone = '[' :: 'x' :: [']'] from rfl, isPrefixOf_cons_same,
    isPrefixOf_cons_ne (by decide), if_neg (by simp)]
  rw [show mkProg = '[' :: '-' :: [']'] from rfl, isPrefixOf_cons_same,
    isPrefixOf_cons_ne (by decide), if_neg (by simp)]
  rw [show ('[' : Char) :: '?' :: (']' :: rstrip s) = mkUnk ++ rstrip s from rfl]
  rw [if_pos (List.isPrefixOf_iff_prefix.mpr (List.prefix_append _ _))]
  rw [drop_marker (m := mkUnk) (rstrip s) 3 rfl, strip_rstrip]

theorem mkInfo_todo_line (st : TStatus) (content : Str)
    (hs : strip content = content) :
    mkInfo (statusMarker (some st) ++ ' ' :: content)
      = ⟨content, NType.todo, some st⟩ := by
  cases st with
  | pending =>
    rw [show statusMarker (some TStatus.pending) = mkPend from rfl,
      mkInfo_pend_append, strip_space_cons, hs]
  | complete =>
    rw [show statusMarker (some TStatus.complete) = mkDone from rfl,
      mkInfo_done_append, strip_space_cons, hs]
  | progress =>
    rw [show statusMarker (some TStatus.progress) = mkProg from rfl,
      mkInfo_prog_append, strip_space_cons, hs]
  | unknown =>
    rw [show statusMarker (some TStatus.unknown) = mkUnk from rfl,
      mkInfo_unk_append, strip_space_cons, hs]

theorem mkInfo_plain (content : Str) (hs : strip content = content)
    (h1 : mkPend.isPrefixOf content = false)
    (h2 : mkDone.isPrefixOf content = false)
    (h3 : mkProg.isPrefixOf content = false)
    (h4 : mkUnk.isPrefixOf content = false) :
    mkInfo content = ⟨content, NType.item, none⟩ := by
  unfold mkInfo
  rw [hs]
  rw [if_neg (by simp [h1]), if_neg (by simp [h2]), if_neg (by simp [h3]),
    if_neg (by simp [h4])]

theorem infoWF_strip {i : Info} (h : infoWF i = true) :
    strip i.content = i.content ∧ ('\n' : Char) ∉ i.content := by
  unfold infoWF at h
  simp only [Bool.and_eq_true, decide_eq_true_eq] at h
  exact ⟨h.1.1, h.1.2⟩

theorem infoWF_item {i : Info} (h : infoWF i = true)
    (hnt : i.ntype = NType.item) :
    mkPend.isPrefixOf i.content = false ∧ mkDone.isPrefixOf i.content = false ∧
      mkProg.isPrefixOf i.content = false ∧ mkUnk.isPrefixOf i.content = false ∧
      i.tstatus = none := by
  unfold infoWF at h
  rw [hnt] at h
  simp only [Bool.and_eq_true, Bool.not_eq_true', decide_eq_true_eq] at h
  exact ⟨by tauto, by tauto, by tauto, by tauto, by tauto⟩

theorem infoWF_todo {i : Info} (h : infoWF i = true)
    (hnt : i.ntype = NType.todo) : ∃ st, i.tstatus = some st := by
  unfold infoWF at h
  rw [hnt] at h
  simp only [Bool.and_eq_true] at h
  exact Option.isSome_iff_exists.mp h.2

theorem lineItem_mkLine (i : Info) (lvl : Nat) (hwf : infoWF i = true) :
    lineItem (mkLine i lvl) = some (i, lvl) := by
  obtain ⟨hs, hnl⟩ := infoWF_strip hwf
  cases hnt : i.ntype with
  | root =>
    exfalso
    unfold infoWF at hwf
    rw [hnt] at hwf
    simp at hwf
  | item =>
    obtain ⟨h1, h2, h3, h4, hts⟩ := infoWF_item hwf hnt
    have hml : mkLine i lvl
        = List.replicate (4 * lvl) ' ' ++ '-' :: (' ' :: i.content) := by
      simp only [mkLine, hnt]
      rw [List.append_assoc]
      rfl
    rw [hml,
      lineItem_shift lvl '-' (' ' :: i.content) (by decide) (by decide)
        (by decide)]
    rw [if_pos (by
      rw [show ('-' : Char) :: (' ' :: i.content) = dashSp ++ i.content from rfl]
      exact List.isPrefixOf_iff_prefix.mpr (List.prefix_append _ _))]
    rw [show (('-' : Char) :: (' ' :: i.content)).drop 2 = i.content from rfl]
    rw [mkInfo_plain i.content hs h1 h2 h3 h4]
    have hi : (⟨i.content, NType.item, none⟩ : Info) = i := by
      rw [← hnt, ← hts]
    rw [hi]
  | todo =>
    obtain ⟨st, hts⟩ := infoWF_todo hwf hnt
    have hml : mkLine i lvl
        = List.replicate (4 * lvl) ' '
          ++ (statusMarker (some st) ++ ' ' :: i.content) := by
      simp only [mkLine, hnt, hts]
      rw [List.append_assoc]
    obtain ⟨mr, hmr⟩ : ∃ mr, statusMarker (some st) ++ ' ' :: i.content
        = '[' :: mr := by
      cases st <;> exact ⟨_, rfl⟩
    have hdneg : dashSp.isPrefixOf ('[' :: mr) = false := by
      rw [show dashSp = '-' :: [' '] from rfl, isPrefixOf_cons_ne (by decide)]
    rw [hml, hmr, lineItem_shift lvl '[' mr (by decide) (by decide) (by decide)]
    rw [if_neg (by simp [hdneg])]
    rw [← hmr, mkInfo_todo_line st i.content hs]
    have hi : (⟨i.content, NType.todo, some st⟩ : Info) = i := by
      rw [← hnt, ← hts]
    rw [hi]

theorem infoWF_ne_root {i : Info} (h : infoWF i = true) :
    i.ntype ≠ NType.root := by
  intro hr
  unfold infoWF at h
  rw [hr] at h
  simp at h

theorem nodeListWF_mem {cs : List Node} (h : nodeListWF cs = true) {c : Node}
    (hc : c ∈ cs) : nodeWF c = true := by
  induction cs with
  | nil => cases hc
  | cons d ds ih =>
    have h2 : nodeWF d = true ∧ nodeListWF ds = true := by
      simpa [nodeListWF, Bool.and_eq_true] using h
    rcases List.mem_cons.mp hc with rfl | hc2
    · exact h2.1
    · exact ih h2.2 hc2

theorem dfsList_entries_wf_aux (cs : List Node)
    (ih : ∀ c ∈ cs, nodeWF c = true → ∀ d e, e ∈ dfsNode c d →
      infoWF e.1 = true)
    (hwf : nodeListWF cs = true) :
    ∀ d e, e ∈ dfsList cs d → infoWF e.1 = true := by
  induction cs with
  | nil =>
    intro d e he
    cases he
  | cons c cr ihl =>
    intro d e he
    have hw : nodeWF c = true ∧ nodeListWF cr = true := by
      simpa [nodeListWF, Bool.and_eq_true] using hwf
    have he2 : e ∈ dfsNode c d ++ dfsList cr d := he
    rcases List.mem_append.mp he2 with he3 | he3
    · exact ih c (List.mem_cons_self _ _) hw.1 d e he3
    · exact ihl (fun x hx => ih x (List.mem_cons_of_mem _ hx)) hw.2 d e he3

theorem dfsNode_entries_wf :
    ∀ (n : Node), nodeWF n = true → ∀ d e, e ∈ dfsNode n d →
      infoWF e.1 = true := by
  intro n
  induction n using node_ind with
  | _ i f cs ih =>
    intro hwf d e he
    have hw : (infoWF i = true ∧ (!f) = true) ∧ nodeListWF cs = true := by
      simpa [nodeWF, Bool.and_eq_true] using hwf
    cases hnt : i.ntype with
    | root =>
      have hd : dfsNode (Node.mk i f cs) d = dfsList cs (d + 1) := by
        simp [dfsNode, hnt]
      rw [hd] at he
      exact dfsList_entries_wf_aux cs ih hw.2 _ e he
    | item =>
      have hd : dfsNode (Node.mk i f cs) d = (i, d) :: dfsList cs (d + 1) := by
        simp [dfsNode, hnt]
      rw [hd] at he
      rcases List.mem_cons.mp he with rfl | he2
      · exact hw.1.1
      · exact dfsList_entries_wf_aux cs ih hw.2 _ e he2
    | todo =>
      have hd : dfsNode (Node.mk i f cs) d = (i, d) :: dfsList cs (d + 1) := by
        simp [dfsNode, hnt]
      rw [hd] at he
      rcases List.mem_cons.mp he with rfl | he2
      · exact hw.1.1
      · exact dfsList_entries_wf_aux cs ih hw.2 _ e he2

theorem dfsList_entries_wf (cs : List Node) (hwf : nodeListWF cs = true) :
    ∀ d e, e ∈ dfsList cs d → infoWF e.1 = true :=
  dfsList_entries_wf_aux cs (fun c _ => dfsNode_entries_wf c) hwf

theorem splitNl_no_nl {l : Str} (h : ('\n' : Char) ∉ l) : splitNl l = [l] := by
  induction l with
  | nil => rfl
  | cons c r ih =>
    have hc : ¬(c = '\n') := by
      intro he
      exact h (by rw [← he]; exact List.mem_cons_self c r)
    rw [splitNl_cons, if_neg hc, ih (fun hm => h (List.mem_cons_of_mem c hm))]

theorem joinNl_splitNl :
    ∀ (L : List Str), L ≠ [] → (∀ l ∈ L, ('\n' : Char) ∉ l) →
      splitNl (joinNl L) = L := by
  intro L
  induction L with
  | nil =>
    intro h _
    exact absurd rfl h
  | cons l ls ih =>
    intro _ hnl
    cases ls with
    | nil =>
      show splitNl (joinNl [l]) = [l]
      rw [show joinNl [l] = l from rfl]
      exact splitNl_no_nl (hnl l (List.mem_cons_self _ _))
    | cons l2 ls2 =>
      rw [show joinNl (l :: l2 :: ls2) = l ++ '\n' :: joinNl (l2 :: ls2)
        from rfl]
      rw [splitNl_append_line _ (hnl l (List.mem_cons_self _ _))]
      rw [ih (by simp) (fun x hx => hnl x (List.mem_cons_of_mem _ hx))]

theorem childSplit_map (cs : List Node) (lvl : Nat)
    (h : ∀ c ∈ cs, splitNl (serializeNode c lvl)
      = (dfsNode c (lvl + 1)).map (fun e => mkLine e.1 (e.2 - 1))) :
    childSplit cs lvl
      = (dfsList cs (lvl + 1)).map (fun e => mkLine e.1 (e.2 - 1)) := by
  induction cs with
  | nil => rfl
  | cons c cr ih =>
    rw [show childSplit (c :: cr) lvl
        = splitNl (serializeNode c lvl) ++ childSplit cr lvl from rfl]
    rw [h c (List.mem_cons_self _ _),
      ih (fun x hx => h x (List.mem_cons_of_mem _ hx))]
    rw [show dfsList (c :: cr) (lvl + 1)
        = dfsNode c (lvl + 1) ++ dfsList cr (lvl + 1) from rfl]
    rw [List.map_append]

theorem serializeNode_lines :
    ∀ (n : Node), nodeWF n = true → ∀ (lvl : Nat),
      serializeNode n lvl
        = joinNl ((dfsNode n (lvl + 1)).map (fun e => mkLine e.1 (e.2 - 1)))
      ∧ splitNl (serializeNode n lvl)
        = (dfsNode n (lvl + 1)).map (fun e => mkLine e.1 (e.2 - 1)) := by
  intro n
  induction n using node_ind with
  | _ i f cs ih =>
    intro hwf lvl
    have hw : (infoWF i = true ∧ (!f) = true) ∧ nodeListWF cs = true := by
      simpa [nodeWF, Bool.and_eq_true] using hwf
    have hf : f = false := by
      have h2 := hw.1.2
      cases f
      · rfl
      · simp at h2
    subst hf
    have hcs : childSplit cs (lvl + 1)
        = (dfsList cs (lvl + 2)).map (fun e => mkLine e.1 (e.2 - 1)) :=
      childSplit_map cs (lvl + 1) (fun c hc =>
        (ih c hc (nodeListWF_mem hw.2 hc) (lvl + 1)).2)
    have hntr := infoWF_ne_root hw.1.1
    have hser0 : serializeNode (Node.mk i false cs) lvl
        = joinNl ((mkLine i lvl :: childSplit cs (lvl + 1)).filter
            (fun l => !(blank l))) := by
      cases hnt : i.ntype with
      | root => exact absurd hnt hntr
      | item => simp [serializeNode, hnt]
      | todo => simp [serializeNode, hnt]
    have hfilter : (mkLine i lvl :: childSplit cs (lvl + 1)).filter
        (fun l => !(blank l)) = mkLine i lvl :: childSplit cs (lvl + 1) := by
      rw [List.filter_eq_self]
      intro l hl
      rcases List.mem_cons.mp hl with rfl | hl2
      · simp [blank_mkLine]
      · rw [hcs] at hl2
        obtain ⟨e, he, rfl⟩ := List.mem_map.mp hl2
        simp [blank_mkLine]
    have hdfs : dfsNode (Node.mk i false cs) (lvl + 1)
        = (i, lvl + 1) :: dfsList cs (lvl + 2) := by
      cases hnt : i.ntype with
      | root => exact absurd hnt hntr
      | item => simp [dfsNode, hnt]
      | todo => simp [dfsNode, hnt]
    have hmap : (dfsNode (Node.mk i false cs) (lvl + 1)).map
          (fun e => mkLine e.1 (e.2 - 1))
        = mkLine i lvl :: (dfsList cs (lvl + 2)).map
            (fun e => mkLine e.1 (e.2 - 1)) := by
      rw [hdfs, List.map_cons]
      simp
    have h1 : serializeNode (Node.mk i false cs) lvl
        = joinNl ((dfsNode (Node.mk i false cs) (lvl + 1)).map
            (fun e => mkLine e.1 (e.2 - 1))) := by
      rw [hser0, hfilter, hcs, hmap]
    refine ⟨h1, ?_⟩
    rw [h1]
    apply joinNl_splitNl
    · rw [hmap]
      simp
    · intro l hl
      obtain ⟨e, he, rfl⟩ := List.mem_map.mp hl
      exact mkLine_no_nl _ _ (infoWF_strip (dfsNode_entries_wf _ hwf _ e he)).2

theorem serializeTree_lines (t : Node) (hwf : treeWF t = true) :
    serializeTree t
      = joinNl ((dfsSeq t).map (fun e => mkLine e.1 (e.2 - 1))) := by
  obtain ⟨i, f, cs⟩ := t
  simp only [treeWF, Node.info, Node.folded, Node.children, Bool.and_eq_true,
    decide_eq_true_eq, Bool.not_eq_true'] at hwf
  obtain ⟨⟨hnt, hf⟩, hcs⟩ := hwf
  subst hf
  have hchild : childSplit cs 0
      = (dfsList cs (0 + 1)).map (fun e => mkLine e.1 (e.2 - 1)) :=
    childSplit_map cs 0 (fun c hc =>
      (serializeNode_lines c (nodeListWF_mem hcs hc) 0).2)
  have hser0 : serializeTree (Node.mk i false cs)
      = joinNl ((childSplit cs 0).filter (fun l => !(blank l))) := by
    simp [serializeTree, serializeNode, hnt]
  have hfilter : (childSplit cs 0).filter (fun l => !(blank l))
      = childSplit cs 0 := by
    rw [List.filter_eq_self]
    intro l hl
    rw [hchild] at hl
    obtain ⟨e, he, rfl⟩ := List.mem_map.mp hl
    simp [blank_mkLine]
  have hdfs : dfsSeq (Node.mk i false cs) = dfsList cs (0 + 1) := by
    simp [dfsSeq, dfsNode, hnt]
  rw [hser0, hfilter, hchild, hdfs]

theorem blank_joinNl_cons {l : Str} (ls : List Str) (h : blank l = false) :
    blank (joinNl (l :: ls)) = false := by
  cases ls with
  | nil => exact h
  | cons l2 ls2 =>
    rw [show joinNl (l :: l2 :: ls2) = l ++ '\n' :: joinNl (l2 :: ls2) from rfl,
      blank_append, h]
    rfl

theorem filterMap_eq_map_of {α β : Type} (l : List α) (F : α → Option β)
    (G : α → β) (h : ∀ x ∈ l, F x = some (G x)) : l.filterMap F = l.map G := by
  induction l with
  | nil => rfl
  | cons a as ih =>
    rw [List.filterMap_cons, h a (List.mem_cons_self _ _), List.map_cons,
      ih (fun x hx => h x (List.mem_cons_of_mem _ hx))]

theorem depthSeq_dfsList_aux (cs : List Node)
    (ih : ∀ c ∈ cs, nodeWF c = true → ∀ (d p : Nat) (rest : List Entry),
      1 ≤ d → d ≤ p + 1 →
      ∃ q, d ≤ q ∧ depthSeq p ((dfsNode c d).map demote ++ rest)
        = dfsNode c d ++ depthSeq q rest)
    (hwf : nodeListWF cs = true) :
    ∀ (d p : Nat) (rest : List Entry), 1 ≤ d → d ≤ p + 1 →
      ∃ q, d ≤ q + 1 ∧ depthSeq p ((dfsList cs d).map demote ++ rest)
        = dfsList cs d ++ depthSeq q rest := by
  induction cs with
  | nil =>
    intro d p rest h1 h2
    exact ⟨p, h2, rfl⟩
  | cons c cr ihl =>
    intro d p rest h1 h2
    have hw : nodeWF c = true ∧ nodeListWF cr = true := by
      simpa [nodeListWF, Bool.and_eq_true] using hwf
    obtain ⟨q1, hq1, e1⟩ := ih c (List.mem_cons_self _ _) hw.1 d p
      ((dfsList cr d).map demote ++ rest) h1 h2
    obtain ⟨q2, hq2, e2⟩ := ihl (fun x hx => ih x (List.mem_cons_of_mem _ hx))
      hw.2 d q1 rest h1 (by omega)
    refine ⟨q2, hq2, ?_⟩
    rw [show dfsList (c :: cr) d = dfsNode c d ++ dfsList cr d from rfl,
      List.map_append, List.append_assoc, e1, e2, List.append_assoc]

theorem depthSeq_dfsNode :
    ∀ (n : Node), nodeWF n = true → ∀ (d p : Nat) (rest : List Entry),
      1 ≤ d → d ≤ p + 1 →
      ∃ q, d ≤ q ∧ depthSeq p ((dfsNode n d).map demote ++ rest)
        = dfsNode n d ++ depthSeq q rest := by
  intro n
  induction n using node_ind with
  | _ i f cs ih =>
    intro hwf d p rest h1 h2
    have hw : (infoWF i = true ∧ (!f) = true) ∧ nodeListWF cs = true := by
      simpa [nodeWF, Bool.and_eq_true] using hwf
    have hntr := infoWF_ne_root hw.1.1
    have hdfs : dfsNode (Node.mk i f cs) d = (i, d) :: dfsList cs (d + 1) := by
      cases hx : i.ntype with
      | root => exact absurd hx hntr
      | item => simp [dfsNode, hx]
      | todo => simp [dfsNode, hx]
    obtain ⟨q2, hq2, e2⟩ := depthSeq_dfsList_aux cs (fun c hc => ih c hc) hw.2
      (d + 1) d rest (by omega) (by omega)
    refine ⟨q2, by omega, ?_⟩
    rw [hdfs, List.map_cons, List.cons_append,
      show demote (i, d) = (i, d - 1) from rfl]
    simp only [depthSeq]
    have hd1 : d - 1 + 1 = d := by omega
    rw [hd1]
    have hmin : min (p + 1) d = d := by omega
    rw [hmin, e2]
    rfl

theorem depthSeq_dfsList (cs : List Node) (hwf : nodeListWF cs = true) :
    depthSeq 0 ((dfsList cs 1).map demote) = dfsList cs 1 := by
  obtain ⟨q, hq, e⟩ := depthSeq_dfsList_aux cs
    (fun c hc => depthSeq_dfsNode c) hwf 1 0 [] (by omega) (by omega)
  simpa [depthSeq] using e

theorem dfsNode_ne_nil (n : Node) (h : nodeWF n = true) (d : Nat) :
    dfsNode n d ≠ [] := by
  obtain ⟨i, f, cs⟩ := n
  have hw : (infoWF i = true ∧ (!f) = true) ∧ nodeListWF cs = true := by
    simpa [nodeWF, Bool.and_eq_true] using h
  have hntr := infoWF_ne_root hw.1.1
  cases hx : i.ntype with
  | root => exact absurd hx hntr
  | item => simp [dfsNode, hx]
  | todo => simp [dfsNode, hx]

theorem roundtrip_of_wf (t : Node) (hwf : treeWF t = true) :
    dfsSeq (loadFromText (serializeTree t)) = dfsSeq t := by
  obtain ⟨i, f, cs⟩ := t
  have hwf0 := hwf
  simp only [treeWF, Node.info, Node.folded, Node.children, Bool.and_eq_true,
    decide_eq_true_eq, Bool.not_eq_true'] at hwf
  obtain ⟨⟨hnt, hf⟩, hcs⟩ := hwf
  subst hf
  cases cs with
  | nil =>
    have hser : serializeTree (Node.mk i false []) = [] := by
      simp [serializeTree, serializeNode, childSplit, joinNl, hnt]
    rw [hser]
    have hload : loadFromText [] = Node.mk rootInfo false [] := by
      simp [loadFromText, blank]
    rw [hload]
    have h1 : dfsSeq (Node.mk rootInfo false []) = [] := by decide
    have h2 : dfsSeq (Node.mk i false []) = [] := by
      simp [dfsSeq, dfsNode, dfsList, hnt]
    rw [h1, h2]
  | cons c0 cs0 =>
    have hsl : serializeTree (Node.mk i false (c0 :: cs0))
        = joinNl ((dfsSeq (Node.mk i false (c0 :: cs0))).map
            (fun e => mkLine e.1 (e.2 - 1))) :=
      serializeTree_lines _ hwf0
    have hdfs : dfsSeq (Node.mk i false (c0 :: cs0))
        = dfsList (c0 :: cs0) (0 + 1) := by
      simp [dfsSeq, dfsNode, hnt]
    have hewf : ∀ e ∈ dfsList (c0 :: cs0) (0 + 1), infoWF e.1 = true :=
      fun e he => dfsList_entries_wf _ hcs _ e he
    have hne : dfsList (c0 :: cs0) (0 + 1) ≠ [] := by
      rw [show dfsList (c0 :: cs0) (0 + 1)
          = dfsNode c0 (0 + 1) ++ dfsList cs0 (0 + 1) from rfl]
      intro hcon
      exact dfsNode_ne_nil c0 (nodeListWF_mem hcs (List.mem_cons_self _ _)) _
        (List.append_eq_nil.mp hcon).1
    have hLne : (dfsList (c0 :: cs0) (0 + 1)).map
        (fun e => mkLine e.1 (e.2 - 1)) ≠ [] := by
      simpa using hne
    have hLnl : ∀ l ∈ (dfsList (c0 :: cs0) (0 + 1)).map
        (fun e => mkLine e.1 (e.2 - 1)), ('\n' : Char) ∉ l := by
      intro l hl
      obtain ⟨e, he, rfl⟩ := List.mem_map.mp hl
      exact mkLine_no_nl _ _ (infoWF_strip (hewf e he)).2
    have hsplit : splitNl (serializeTree (Node.mk i false (c0 :: cs0)))
        = (dfsList (c0 :: cs0) (0 + 1)).map (fun e => mkLine e.1 (e.2 - 1)) := by
      rw [hsl, hdfs]
      exact joinNl_splitNl _ hLne hLnl
    have hblank : blank (serializeTree (Node.mk i false (c0 :: cs0)))
        = false := by
      rw [hsl, hdfs]
      cases hLc : (dfsList (c0 :: cs0) (0 + 1)).map
          (fun e => mkLine e.1 (e.2 - 1)) with
      | nil => exact absurd hLc hLne
      | cons l0 ls0 =>
        apply blank_joinNl_cons
        have hl0 : l0 ∈ (dfsList (c0 :: cs0) (0 + 1)).map
            (fun e => mkLine e.1 (e.2 - 1)) := by
          rw [hLc]
          exact List.mem_cons_self _ _
        obtain ⟨e, he, hrfl⟩ := List.mem_map.mp hl0
        rw [← hrfl]
        exact blank_mkLine _ _
    have hload : loadFromText (serializeTree (Node.mk i false (c0 :: cs0)))
        = parseLines (splitNl (serializeTree (Node.mk i false (c0 :: cs0)))) := by
      simp [loadFromText, hblank]
    rw [hload, hsplit, dfsSeq_parseLines]
    rw [List.filterMap_map]
    rw [filterMap_eq_map_of _ (lineItem ∘ fun e => mkLine e.1 (e.2 - 1)) demote
      (fun e he => lineItem_mkLine e.1 (e.2 - 1) (hewf e he))]
    rw [hdfs]
    exact depthSeq_dfsList _ hcs

/-- C1: the parse/serialize round-trip of the GUI model. For every input text,
re-parsing `serialize_to_loglog` of `load_from_text`'s tree reproduces exactly
the same depth-first sequence of (content, node type, TODO status) paired with
depth as parsing the text directly — here even literal equality, with no
marker normalization needed, because the serializer only ever emits the `[]`
form of the pending marker that the GUI parser reads back as pending. -/
theorem c1_parse_serialize_roundtrip (text : Str) :
    dfsSeq (loadFromText (serializeTree (loadFromText text)))
      = dfsSeq (loadFromText text) :=
  roundtrip_of_wf (loadFromText text) (loadFromText_treeWF text)

end LogLog
